import Mathlib

/-!
Verification of the BookStack organizer scripts.

A shallow embedding, in Lean 4, of the content-organizing scripts of this
repository (`setup/organize-library.py` and `setup/organize-inbox.py`), and
proofs about them.

Modelling conventions:
* Python strings are `String` (sequences of `Char`); the string helpers
  (`strip`, the `re.sub` passes, `int(...)` parsing, `.lower()`) are modelled
  over ASCII data: the whitespace class, case folding and the `\w` word class
  are the ASCII fragments of Python's (the repository's data is ASCII).
* Python ints are `Int`; JSON records become structures.
* The remote BookStack store is a `World`: a read snapshot answering every GET
  the scripts issue, plus the data the store would invent on a create (fresh
  ids) and an oracle saying which chapter-relocation PUTs the store rejects.
  Each operation is embedded as a function of the `World` that returns its
  Python return value together with the ordered list of mutating requests
  (create/update/delete) it issues; within a single operation of these scripts
  a write it issues never changes the answer to a read the same operation does
  afterwards, so the snapshot view is exact for the properties proved here.
  `move_page` (from `organize-inbox.py`) is the one function proved about
  repeated calls, so it additionally threads the store: its PUT reparents the
  page, which is the documented semantics of the BookStack page-update call.
-/

set_option maxHeartbeats 1000000

namespace BookStack

/-! ## Python string primitives -/

/-- ASCII fragment of Python's whitespace class (`str.strip`, regex class). -/
def isPyWs (c : Char) : Bool :=
  c = ' ' ∨ c = '\t' ∨ c = '\n' ∨ c = '\r' ∨ c = '\x0b' ∨ c = '\x0c'

/-- ASCII lower-casing, the fragment of `str.lower` / `re.IGNORECASE` used. -/
def lowerAscii (c : Char) : Char :=
  if 'A' ≤ c ∧ c ≤ 'Z' then Char.ofNat (c.toNat + 32) else c

def isDigitC (c : Char) : Bool := '0' ≤ c ∧ c ≤ '9'

/-- ASCII fragment of the regex `\w` class. -/
def isWordC (c : Char) : Bool :=
  ('a' ≤ c ∧ c ≤ 'z') ∨ ('A' ≤ c ∧ c ≤ 'Z') ∨ isDigitC c ∨ c = '_'

def isLowerAlnum (c : Char) : Bool := ('a' ≤ c ∧ c ≤ 'z') ∨ isDigitC c

def strOf (l : List Char) : String := String.mk l

/-- Right strip: drop trailing whitespace. -/
def stripR (l : List Char) : List Char := (l.reverse.dropWhile isPyWs).reverse

/-- Python `str.strip()` on char lists (both ends). -/
def pyStripL (l : List Char) : List Char := stripR (l.dropWhile isPyWs)

/-- Python `str.strip()`. -/
def pyStrip (s : String) : String := strOf (pyStripL s.data)

/-! ## The `re.sub(pattern, " ", s)` scanner

`substCount tryf l` scans `l` left to right; at each position `tryf` reports
the length of a match of the pattern starting exactly there (`none` for no
match).  A match is replaced by a single space and scanning resumes after it —
the semantics of `re.sub` with a single-space replacement, leftmost match
first.  A reported length of `0` is treated as no match (all the patterns
below consume at least one character). -/

def substCountF (tryf : List Char → Option Nat) : Nat → List Char → List Char
  | 0, l => l
  | _ + 1, [] => []
  | f + 1, c :: cs =>
    match tryf (c :: cs) with
    | some (n + 1) => ' ' :: substCountF tryf f (cs.drop n)
    | _ => c :: substCountF tryf f cs

/-- The scanner at fuel `l.length`: every step consumes at least one input
character and one unit of fuel, so this fuel always suffices
(`substCountF_fuel`), and the structural recursion keeps the scanner
kernel-evaluable on literals. -/
def substCount (tryf : List Char → Option Nat) (l : List Char) : List Char :=
  substCountF tryf l.length l

/-- Case-insensitive literal match: returns the rest of the input after the
pattern, `none` on a mismatch (ASCII case folding). -/
def matchCI : List Char → List Char → Option (List Char)
  | [], l => some l
  | _ :: _, [] => none
  | p :: ps, c :: cs => if lowerAscii c = lowerAscii p then matchCI ps cs else none

/-- Index of the first case-insensitive occurrence of `pat` (a nonempty
literal) in the input, the search the non-greedy `.*?` performs. -/
def findCI (pat : List Char) : List Char → Option Nat
  | [] => none
  | c :: cs => if (matchCI pat (c :: cs)).isSome then some 0 else (findCI pat cs).map (· + 1)

/-- Matcher for `<tag[^>]*>.*?</tag>` (DOTALL, IGNORECASE) at the head of the
input; returns the total number of characters of the match. -/
def tryBlock (tag : List Char) (l : List Char) : Option Nat :=
  match matchCI ('<' :: tag) l with
  | none => none
  | some r1 =>
    let attrs := r1.takeWhile (fun c => c ≠ '>')
    if attrs.length < r1.length then
      let r2 := r1.drop (attrs.length + 1)
      match findCI ('<' :: '/' :: (tag ++ ['>'])) r2 with
      | none => none
      | some i => some ((1 + tag.length) + (attrs.length + 1) + i + (tag.length + 3))
    else none

/-- Matcher for `<[^>]+>` at the head of the input. -/
def tryTag : List Char → Option Nat
  | [] => none
  | c :: rest =>
    if c = '<' then
      let inner := rest.takeWhile (fun x => x ≠ '>')
      if inner.length < rest.length ∧ 1 ≤ inner.length then some (inner.length + 2) else none
    else none

def nbspL : List Char := ['&', 'n', 'b', 's', 'p', ';']

/-- Matcher for the literal `&nbsp;` (for `str.replace("&nbsp;", " ")`). -/
def tryNbsp (l : List Char) : Option Nat :=
  if nbspL.isPrefixOf l then some nbspL.length else none

/-- Matcher for `\s+` at the head of the input. -/
def tryWs : List Char → Option Nat
  | [] => none
  | c :: cs => if isPyWs c then some ((c :: cs).takeWhile isPyWs).length else none

def styleTagL : List Char := ['s', 't', 'y', 'l', 'e']

def scriptTagL : List Char := ['s', 'c', 'r', 'i', 'p', 't']

/-- The four markup-removal passes of `strip_html_to_text` (everything before
the final whitespace collapse). -/
def stripPasses (l : List Char) : List Char :=
  substCount tryNbsp (substCount tryTag
    (substCount (tryBlock scriptTagL) (substCount (tryBlock styleTagL) l)))

/-- `strip_html_to_text` from `organize-library.py`: drop `<style>`/`<script>`
blocks, drop tags, undo `&nbsp;`, collapse whitespace runs to single spaces
and strip the ends. -/
def strip_html_to_text (s : String) : String :=
  strOf (pyStripL (substCount tryWs (stripPasses s.data)))

def wordsOfF : Nat → List Char → List (List Char)
  | 0, _ => []
  | _ + 1, [] => []
  | f + 1, c :: cs =>
    if isPyWs c then wordsOfF f cs
    else (c :: cs.takeWhile (fun x => ¬ isPyWs x)) :: wordsOfF f (cs.dropWhile (fun x => ¬ isPyWs x))

/-- The maximal non-whitespace runs of a char list, in order (fuel
`l.length` always suffices: each step consumes at least one character). -/
def wordsOf (l : List Char) : List (List Char) := wordsOfF l.length l

/-- Join words with single spaces (`" ".join`). -/
def joinSp : List (List Char) → List Char
  | [] => []
  | [w] => w
  | w :: u :: rest => w ++ ' ' :: joinSp (u :: rest)

/-! ## Title tokenizer and classifier (`organize-library.py`) -/

/-- `STOPWORDS` (a Python set, modelled as a list with membership). -/
def STOPWORDS : List String :=
  ["a", "an", "and", "are", "as", "at", "be", "but", "by", "for", "from", "has",
   "have", "how", "if", "in", "into", "is", "it", "its", "of", "on", "or", "our",
   "out", "the", "this", "to", "using", "vs", "we", "what", "when", "where",
   "why", "with", "you", "your"]

/-- `WEAK_TOKENS` (a Python set, modelled as a list with membership). -/
def WEAK_TOKENS : List String :=
  ["overview", "guide", "basics", "introduction", "getting", "started",
   "general", "notes", "reference", "resources", "tools", "software",
   "training", "development", "project", "projects", "design", "standards",
   "procedures", "procedure", "process", "setup", "library", "archive"]

/-- Matcher for `[^a-z0-9]+` at the head of the input (the input is already
lower-cased when this runs, as in `tokenize`). -/
def tryNonAlnum : List Char → Option Nat
  | [] => none
  | c :: cs =>
    if isLowerAlnum c then none
    else some ((c :: cs).takeWhile (fun x => ¬ isLowerAlnum x)).length

/-- `tokenize(title)`: lower-case, replace every `[^a-z0-9]+` run by a space,
split, drop stop words, drop 1-character tokens, collect as a set. -/
def tokenize (title : String) : Finset String :=
  let subbed := substCount tryNonAlnum (title.data.map lowerAscii)
  let parts := (wordsOf subbed).map strOf
  let parts := parts.filter (fun p => p ≠ "" ∧ ¬ p ∈ STOPWORDS)
  let parts := parts.filter (fun p => 2 ≤ p.length)
  parts.toFinset

def pfxGroupsF : Nat → List Char → List (List Char) × List Char
  | 0, l => ([], l)
  | _ + 1, [] => ([], [])
  | f + 1, c :: cs =>
    if c = '.' ∧ 1 ≤ (cs.takeWhile isDigitC).length then
      let ds := cs.takeWhile isDigitC
      let r := pfxGroupsF f (cs.drop ds.length)
      (('.' :: ds) :: r.1, r.2)
    else ([], c :: cs)

/-- Greedy parse of `(\.\d+)*`: the list of parsed groups (each group the
characters `.d₁…dₖ`) and the rest of the input (fuel `l.length` always
suffices: each step consumes at least two characters). -/
def pfxGroups (l : List Char) : List (List Char) × List Char := pfxGroupsF l.length l

/-- The `\b` test after the numeric label: the next character is not a word
character (or the input ends). -/
def atWordBoundary : List Char → Bool
  | [] => true
  | c :: _ => ¬ isWordC c

/-- `extract_numeric_prefix` from `organize-library.py`: the leading
`\s*(\d+(?:\.\d+)*)\b` label of a title, if any.  Backtracking note: when the
greedy parse of the dotted groups is not followed by a word boundary, the
regex engine retries with shorter alternatives; a shorter `\d+` inside the last
group always leaves digit next to digit (no boundary), so the first alternative
that can succeed drops the last group entirely, and it always succeeds because
the character after the remaining groups is then a dot.  Dropping the digits of
the leading `\d+` likewise never helps, so with no group the match fails. -/
def extract_numeric_pfx (title : String) : Option String :=
  let l := title.data.dropWhile isPyWs
  let ds := l.takeWhile isDigitC
  if ds = [] then none
  else
    let r := pfxGroups (l.drop ds.length)
    if atWordBoundary r.2 then some (strOf (ds ++ r.1.flatten))
    else if r.1 ≠ [] then some (strOf (ds ++ r.1.dropLast.flatten))
    else none

/-- A candidate chapter as `move_direct_pages` precomputes it: id, name, token
set and numeric label of its own name (the dict `{"id", "name", "tokens",
"prefix"}`). -/
structure Chap where
  id : Int
  name : String
  tokens : Finset String
  pfx : Option String
deriving DecidableEq

/-- One step of the argmax loop: strict improvement, first maximum kept. -/
def pstep (toks : Finset String) (acc : Option Chap × Int) (ch : Chap) :
    Option Chap × Int :=
  let sc : Int := ((toks ∩ ch.tokens).card : Int)
  if acc.2 < sc then (some ch, sc) else acc

/-- The argmax loop of the prefix-disambiguation phase (`best = None`,
`best_score = -1`). -/
def pfxFold (toks : Finset String) (chs : List Chap) : Option Chap × Int :=
  chs.foldl (pstep toks) (none, -1)

/-- One step of the lexical argmax loop, which additionally tracks the
intersection of the kept candidate. -/
def lstep (toks : Finset String) (acc : Option Chap × Int × Finset String)
    (ch : Chap) : Option Chap × Int × Finset String :=
  let inter := toks ∩ ch.tokens
  let sc : Int := (inter.card : Int)
  if acc.2.1 < sc then (some ch, sc, inter) else acc

/-- The argmax loop of the lexical phase. -/
def lexFold (toks : Finset String) (chs : List Chap) :
    Option Chap × Int × Finset String :=
  chs.foldl (lstep toks) (none, -1, (∅ : Finset String))

/-- The lexical phase of `best_chapter_for_page` (no usable numeric label). -/
def lexPhase (page_name : String) (chapters : List Chap) : Option Int × String :=
  let toks := tokenize page_name
  match lexFold toks chapters with
  | (none, _, _) => (none, "no-match")
  | (some best, sc, inter) =>
    if sc ≤ 0 then (none, "no-match")
    else if 2 ≤ sc then (some best.id, "overlap:" ++ toString sc)
    else
      -- `next(iter(best_intersection)) if best_intersection else ""`: this
      -- branch runs only with `best_score == 1`, where the intersection is a
      -- singleton and every enumeration order yields its sole element.
      let tok := ((inter.sort (· ≤ ·)).head?).getD ""
      if tok ≠ "" ∧ ¬ tok ∈ WEAK_TOKENS then (some best.id, "weak-overlap:" ++ tok)
      else (none, "low-confidence")

/-- `best_chapter_for_page(page_name, chapters)` from `organize-library.py`. -/
def best_chapter_for_page (page_name : String) (chapters : List Chap) :
    Option Int × String :=
  match extract_numeric_pfx page_name with
  | some p =>
    match chapters.filter (fun c => c.pfx = some p) with
    | [c] => (some c.id, "prefix:" ++ p)
    | c1 :: c2 :: rest =>
      let r := pfxFold (tokenize page_name) (c1 :: c2 :: rest)
      match r.1 with
      | some best => (some best.id, "prefix+overlap:" ++ p ++ ":" ++ toString r.2)
      | none => lexPhase page_name chapters
    | [] => lexPhase page_name chapters
  | none => lexPhase page_name chapters

/-! ## The resilient remote client (`BookStackApi.request`) -/

/-- Python `int(s)` on a string: surrounding whitespace, an optional sign and a
nonempty run of ASCII digits consuming the rest; `none` models `ValueError`. -/
def pyInt? (s : String) : Option Int :=
  let t := pyStripL s.data
  let signed : Bool × List Char :=
    match t with
    | '+' :: r => (false, r)
    | '-' :: r => (true, r)
    | r => (false, r)
  if signed.2 ≠ [] ∧ signed.2.all isDigitC then
    let v : Int := signed.2.foldl (fun a c => a * 10 + ((c.toNat : Int) - ('0'.toNat : Int))) 0
    some (if signed.1 then -v else v)
  else none

/-- One HTTP response as the retry loop sees it: status code, the optional
`Retry-After` header, and the body text. -/
structure HResp where
  status : Nat
  retryAfter : Option String
  body : String

/-- `(resp.text or "").strip().replace("\n", " ")[:200]`. -/
def snippetOf (body : String) : String :=
  strOf (((pyStripL body.data).map (fun c => if c = '\n' then ' ' else c)).take 200)

/-- The sleep chosen on a 429: the `Retry-After` header when it parses to a
positive int (`if retry_after else 0`, `int(...)` with `ValueError → 0`,
`delay <= 0 → backoff`), otherwise `min(60, 2 ** attempt)`. -/
def delay429 (attempt : Nat) (ra : Option String) : Int :=
  let d : Int :=
    match ra with
    | some s => if s ≠ "" then (pyInt? s).getD 0 else 0
    | none => 0
  if d ≤ 0 then ((min 60 (2 ^ attempt) : Nat) : Int) else d

inductive ReqOutcome
  | success (body : Option String)
  | failed (status : Nat) (snippet : String)
  | failedAfterRetries (info : Option (Nat × String))
deriving DecidableEq

/-- The observable result of one `request` call: how many attempts were made,
the sleeps performed between attempts (in order), and the outcome. -/
structure ReqResult where
  attempts : Nat
  sleeps : List Int
  outcome : ReqOutcome
deriving DecidableEq

/-- The retry loop of `BookStackApi.request`, attempt by attempt.  `o k` is
the response the remote returns to the k-th attempt; `fuel` counts the loop
iterations left (`max_attempts = 5`), `last` the last response seen.  The
`fuel = 0` case is the `failed after retries` code after the `for`, kept for
faithfulness though it is unreachable from 5 attempts. -/
def reqLoop (o : Nat → HResp) : Nat → Nat → Option HResp → ReqResult
  | 0, attempt, last =>
    { attempts := attempt - 1, sleeps := [],
      outcome := .failedAfterRetries (last.map (fun r => (r.status, snippetOf r.body))) }
  | fuel + 1, attempt, _ =>
    let r := o attempt
    if r.status = 429 ∧ attempt < 5 then
      let rest := reqLoop o fuel (attempt + 1) (some r)
      { attempts := rest.attempts, sleeps := delay429 attempt r.retryAfter :: rest.sleeps,
        outcome := rest.outcome }
    else if 500 ≤ r.status ∧ r.status < 600 ∧ attempt < 5 then
      let rest := reqLoop o fuel (attempt + 1) (some r)
      { attempts := rest.attempts,
        sleeps := ((min 30 (2 ^ (attempt - 1)) : Nat) : Int) :: rest.sleeps,
        outcome := rest.outcome }
    else if ¬ r.status < 400 then
      { attempts := attempt, sleeps := [], outcome := .failed r.status (snippetOf r.body) }
    else if pyStrip r.body = "" then
      { attempts := attempt, sleeps := [], outcome := .success none }
    else
      { attempts := attempt, sleeps := [], outcome := .success (some r.body) }

/-- `BookStackApi.request` against a response oracle: 5 attempts starting at 1. -/
def request (o : Nat → HResp) : ReqResult := reqLoop o 5 1 none

/-- Spec-side reading of the `Retry-After` header: the server-supplied value
when the header is present (and nonempty) and parses as an integer. -/
def retryAfterInt? (ra : Option String) : Option Int :=
  match ra with
  | some s => if s ≠ "" then pyInt? s else none
  | none => none

/-- A response the client retries on: rate-limit or server-side 5xx. -/
def retryableResp (r : HResp) : Prop :=
  r.status = 429 ∨ (500 ≤ r.status ∧ r.status < 600)

/-- A non-success response the client does not retry on. -/
def otherFailResp (r : HResp) : Prop :=
  ¬ r.status < 400 ∧ r.status ≠ 429 ∧ ¬ (500 ≤ r.status ∧ r.status < 600)

instance (r : HResp) : Decidable (retryableResp r) := by
  unfold retryableResp; infer_instance

instance (r : HResp) : Decidable (otherFailResp r) := by
  unfold otherFailResp; infer_instance

/-! ## The remote store -/

def HOLDING_SHELF_NAME : String := "9. Orphaned"

def HOLDING_BOOK_NAME : String := "Empty Chapters Holding"

def INBOX_CHAPTER_NAME : String := "00. Inbox (Unsorted)"

/-- A JSON value as the scripts inspect it: a string, `None`/missing, or any
other value abstracted by its truthiness (the scripts look at nothing else of
a non-string value before the `isinstance` check). -/
inductive PyVal
  | pstr (s : String)
  | pnone
  | pother (truthy : Bool)
deriving DecidableEq

def PyVal.truthy : PyVal → Bool
  | .pstr s => s ≠ ""
  | .pnone => false
  | .pother b => b

def PyVal.isStr : PyVal → Bool
  | .pstr _ => true
  | _ => false

/-- Python `a or b`: `a` when truthy, else `b`. -/
def pyOr (a b : PyVal) : PyVal := if a.truthy then a else b

/-- An item of a shelf/book listing (`GET /shelves`, `GET /books`). -/
structure BRef where
  id : Int
  name : String
deriving DecidableEq

/-- An entry of a book's `contents` list (a chapter or a direct page);
`pages = some l` models the field being present as a JSON list `l`. -/
structure CItem where
  type : String
  id : Int
  name : String
  pages : Option (List Int)
deriving DecidableEq

/-- A `GET /books/{id}` record. -/
structure BookRec where
  id : Int
  name : String
  contents : List CItem
deriving DecidableEq

/-- A `GET /pages/{id}` record (the fields the scripts read). -/
structure PageRec where
  name : String
  chapter_id : Option Int
  book_id : Option Int
  markdown : PyVal
  raw_html : PyVal
  html : PyVal
deriving DecidableEq

/-- A `GET /search` result item (the fields the scripts read). -/
structure SItem where
  type : String
  name : String
  id : Int
deriving DecidableEq

/-- A mutating request issued to the remote store (the reads are answered by
the `World` directly). -/
inductive Req
  | postBook (name description : String)
  | putShelfBooks (shelfId : Int) (books : List Int)
  | postChapter (bookId : Int) (name : String)
  | putPageChapter (pageId chapterId : Int)
  | putChapterBook (chapterId bookId : Int) (newName : Option String)
  | deletePage (pageId : Int)
deriving DecidableEq

/-- The remote store as one run reads it, together with the data the store
would invent on a create (fresh ids) and the oracle saying which
chapter-relocation PUTs it rejects (`some errText`) — the store may reject a
relocation e.g. on a slug collision in the target book. -/
structure World where
  shelvesData : List BRef
  shelfBooks : Int → List Int
  booksData : List BRef
  bookRecord : Int → BookRec
  pages : Int → PageRec
  search : String → List SItem
  newBookId : Int
  newChapterId : Int → Int
  chapterPut : Int → Option String → Option String

/-! ## Small list helpers used by the operations -/

def insertInt (x : Int) : List Int → List Int
  | [] => [x]
  | y :: ys => if x ≤ y then x :: y :: ys else y :: insertInt x ys

/-- Python `sorted` on a list of ints (ascending). -/
def pySortInt (l : List Int) : List Int := l.foldr insertInt []

/-- Distinct elements (order irrelevant: used only under `sorted(set(...))`). -/
def dedupInts : List Int → List Int
  | [] => []
  | x :: xs => x :: (dedupInts xs).filter (fun y => y ≠ x)

def insertBRef (x : BRef) : List BRef → List BRef
  | [] => [x]
  | y :: ys => if x.id ≤ y.id then x :: y :: ys else y :: insertBRef x ys

/-- `list.sort(key=lambda x: x["id"])` (stable; insertion from the right). -/
def sortBRefById (l : List BRef) : List BRef := l.foldr insertBRef []

def lookupAssoc : List (String × String) → String → Option String
  | [], _ => none
  | (k, v) :: r, nm => if k = nm then some v else lookupAssoc r nm

/-! ## Junk detector (`find_pages_by_exact_name`, `is_effectively_empty_page`,
`delete_junk_pages`) -/

/-- `find_pages_by_exact_name`: ids of search hits of type page whose name is
exactly `nm`, as `sorted(set(ids))`.  (The URL quoting of the query does not
change which name is searched.) -/
def find_pages_by_exact_name (w : World) (nm : String) : List Int :=
  pySortInt (dedupInts
    (((w.search nm).filter (fun i => i.type = "page" ∧ i.name = nm)).map (fun i => i.id)))

/-- `page.get("markdown") or page.get("raw_html") or page.get("html") or ""`. -/
def resolveRaw (p : PageRec) : PyVal :=
  pyOr p.markdown (pyOr p.raw_html (pyOr p.html (.pstr "")))

/-- `is_effectively_empty_page`: non-string body → empty; stripped-empty body
→ empty; otherwise the markup-stripped text is shorter than 30 characters. -/
def is_effectively_empty_page (p : PageRec) : Bool :=
  match resolveRaw p with
  | .pstr s =>
    if pyStrip s = "" then true
    else decide ((strip_html_to_text (pyStrip s)).length < 30)
  | _ => true

/-- An entry of the junk report (`deleted` / `kept` lists). -/
structure JunkEntry where
  id : Int
  name : String
  book_id : Option Int
  chapter_id : Option Int
  empty : Bool
deriving DecidableEq

structure JunkOut where
  deleted : List JunkEntry
  kept : List JunkEntry
  trace : List Req

def junkNames : List String := ["New Page", "Test"]

/-- The inner loop of `delete_junk_pages` over the found ids of one name. -/
def junkLoopPids (w : World) (ap : Bool) (nm : String) : List Int → JunkOut
  | [] => ⟨[], [], []⟩
  | pid :: rest =>
    let page := w.pages pid
    let e := is_effectively_empty_page page
    let entry : JunkEntry := ⟨pid, nm, page.book_id, page.chapter_id, e⟩
    let r := junkLoopPids w ap nm rest
    if e then ⟨entry :: r.deleted, r.kept, (if ap then [Req.deletePage pid] else []) ++ r.trace⟩
    else ⟨r.deleted, entry :: r.kept, r.trace⟩

/-- `delete_junk_pages(api, apply)`. -/
def delete_junk_pages (w : World) (ap : Bool) : JunkOut :=
  let a := junkLoopPids w ap "New Page" (find_pages_by_exact_name w "New Page")
  let b := junkLoopPids w ap "Test" (find_pages_by_exact_name w "Test")
  ⟨a.deleted ++ b.deleted, a.kept ++ b.kept, a.trace ++ b.trace⟩

/-! ## Empty-chapter sweep (`move_empty_chapters`) -/

/-- The chapters of a book's contents whose `pages` field is the empty list. -/
def emptyChaptersOf (w : World) (bid : Int) : List CItem :=
  (w.bookRecord bid).contents.filter (fun c => c.type = "chapter" ∧ c.pages = some [])

/-- `f"[From {bid}] {ch_name}"`. -/
def sweepName (bid : Int) (chName : String) : String :=
  "[From " ++ toString bid ++ "] " ++ chName

structure FailRec where
  book_id : Int
  book : String
  chapter_id : Int
  chapter : String
  error : String
deriving DecidableEq

structure SweepOut where
  moved : Nat
  renamed : Nat
  failures : List FailRec
  trace : List Req

def sweepAppend (a b : SweepOut) : SweepOut :=
  ⟨a.moved + b.moved, a.renamed + b.renamed, a.failures ++ b.failures, a.trace ++ b.trace⟩

/-- Processing of one qualifying chapter: direct relocate; on rejection one
retry under the disambiguated name; on a second rejection a failure record. -/
def sweepChapter (w : World) (hb bid : Int) (ap : Bool) (ch : CItem) : SweepOut :=
  if ¬ ap then ⟨1, 0, [], []⟩
  else
    match w.chapterPut ch.id none with
    | none => ⟨1, 0, [], [Req.putChapterBook ch.id hb none]⟩
    | some _ =>
      let nn := sweepName bid ch.name
      match w.chapterPut ch.id (some nn) with
      | none =>
        ⟨1, 1, [], [Req.putChapterBook ch.id hb none, Req.putChapterBook ch.id hb (some nn)]⟩
      | some e2 =>
        ⟨0, 0, [⟨bid, (w.bookRecord bid).name, ch.id, ch.name, e2⟩],
         [Req.putChapterBook ch.id hb none, Req.putChapterBook ch.id hb (some nn)]⟩

def sweepChapters (w : World) (hb bid : Int) (ap : Bool) : List CItem → SweepOut
  | [] => ⟨0, 0, [], []⟩
  | c :: cs => sweepAppend (sweepChapter w hb bid ap c) (sweepChapters w hb bid ap cs)

def sweepBooks (w : World) (hb : Int) (ap : Bool) : List Int → SweepOut
  | [] => ⟨0, 0, [], []⟩
  | bid :: rest =>
    if bid = hb then sweepBooks w hb ap rest
    else sweepAppend (sweepChapters w hb bid ap (emptyChaptersOf w bid))
           (sweepBooks w hb ap rest)

/-- `move_empty_chapters(api, holding_book_id, apply)`. -/
def move_empty_chapters (w : World) (hb : Int) (ap : Bool) : SweepOut :=
  sweepBooks w hb ap (w.booksData.map (fun b => b.id))

/-! ## Direct-page reorganization (`ensure_inbox_chapter`, `move_direct_pages`) -/

/-- `ensure_inbox_chapter`: the existing inbox chapter's id, else `-1` in
dry-run, else a create. -/
def ensure_inbox_chapter (w : World) (book : BookRec) (ap : Bool) : Int × List Req :=
  match book.contents.find? (fun i => i.type = "chapter" ∧ i.name = INBOX_CHAPTER_NAME) with
  | some item => (item.id, [])
  | none =>
    if ¬ ap then (-1, [])
    else (w.newChapterId book.id, [Req.postChapter book.id INBOX_CHAPTER_NAME])

structure Sample where
  book_id : Int
  book : String
  page_id : Int
  page : String
  chapter_id : Int
  reason : String
deriving DecidableEq

structure MDPOut where
  moved : Nat
  assigned : Nat
  inboxed : Nat
  inbox_created : Nat
  samples : List Sample
  trace : List Req

/-- The target-resolution step for one direct page: classify, and on
no-match fall back to the (lazily ensured) inbox chapter.  Returns the target
(if any), the inbox id to carry forward, the reason, and the updated
accumulator. -/
def mdpStep (w : World) (ap : Bool) (book : BookRec) (chapters : List Chap)
    (p : CItem) (inboxId : Option Int) (acc : MDPOut) :
    Option Int × Option Int × String × MDPOut :=
  let cls := best_chapter_for_page p.name chapters
  match cls.1 with
  | some t => (some t, inboxId, cls.2, { acc with assigned := acc.assigned + 1 })
  | none =>
    let ensured : Option Int × MDPOut :=
      match inboxId with
      | some iid => (some iid, acc)
      | none =>
        let r := ensure_inbox_chapter w book ap
        if r.1 = -1 then (none, { acc with trace := acc.trace ++ r.2 })
        else (some r.1, { acc with inbox_created := acc.inbox_created + 1,
                                   trace := acc.trace ++ r.2 })
    (ensured.1, ensured.1, "inbox:" ++ cls.2,
     { ensured.2 with inboxed := ensured.2.inboxed + 1 })

/-- The per-page body of `move_direct_pages`: resolve a target, move, sample. -/
def mdpPages (w : World) (ap : Bool) (bid : Int) (book : BookRec) (chapters : List Chap) :
    List CItem → Option Int → MDPOut → MDPOut
  | [], _, acc => acc
  | p :: rest, inboxId, acc =>
    let step := mdpStep w ap book chapters p inboxId acc
    match step.1 with
    | none => mdpPages w ap bid book chapters rest step.2.1 step.2.2.2
    | some tgt =>
      let acc1 := step.2.2.2
      let tr2 := acc1.trace ++ (if ap then [Req.putPageChapter p.id tgt] else [])
      let acc2 := { acc1 with moved := acc1.moved + 1, trace := tr2 }
      let smp : Sample := ⟨bid, book.name, p.id, p.name, tgt, step.2.2.1⟩
      let acc3 :=
        if acc2.samples.length < 20 then { acc2 with samples := acc2.samples ++ [smp] }
        else acc2
      mdpPages w ap bid book chapters rest step.2.1 acc3

def mdpBooks (w : World) (ap : Bool) : List Int → MDPOut → MDPOut
  | [], acc => acc
  | bid :: rest, acc =>
    let book := w.bookRecord bid
    let chapters := (book.contents.filter (fun c => c.type = "chapter")).map
      (fun c => (⟨c.id, c.name, tokenize c.name, extract_numeric_pfx c.name⟩ : Chap))
    let direct := book.contents.filter (fun c => c.type = "page")
    if direct = [] then mdpBooks w ap rest acc
    else mdpBooks w ap rest (mdpPages w ap bid book chapters direct none acc)

/-- `move_direct_pages(api, apply)`. -/
def move_direct_pages (w : World) (ap : Bool) : MDPOut :=
  mdpBooks w ap (w.booksData.map (fun b => b.id)) ⟨0, 0, 0, 0, [], []⟩

/-! ## Shelving (`list_unshelved_books`, `shelve_books`) and the holding book -/

/-- The hardcoded book→shelf mapping of `shelve_books`. -/
def book_to_shelf : List (String × String) :=
  [("Vendor Documentation", "3. Technical References"),
   ("Templates Library", "5. Project Resources"),
   ("Lessons Learned", "5. Project Resources"),
   ("Project Case Studies", "5. Project Resources"),
   ("How to Use This BookStack", "EIC Knowledgebase Help"),
   ("Demo Project #1 - CAD / CARS Basics", "4. Training & Development"),
   ("Allen-Bradley Centerline 2100", "7. Integration & Automation"),
   ("Job Classifications", "1. Onboarding"),
   ("Documentation Standards", "2. Standards & Procedures"),
   ("Drawing Standards", "2. Standards & Procedures"),
   ("Instrumentation", "7. Integration & Automation"),
   ("Controls & Networking", "7. Integration & Automation"),
   ("Code & Standards Reference", "3. Technical References"),
   ("Lunch & Learn Archive", "4. Training & Development"),
   ("PDH Courses", "4. Training & Development"),
   ("Project Folder Setup", "5. Project Resources"),
   ("Estimating Guide", "5. Project Resources"),
   ("Proposal Writing", "8. Business Development"),
   ("Commissioning", "5. Project Resources"),
   ("SKM Power Tools", "6. Tools & Software"),
   ("IFM IO-Link", "7. Integration & Automation"),
   ("EtherNet/IP", "7. Integration & Automation"),
   ("HMI Development", "7. Integration & Automation"),
   ("Client Relations", "8. Business Development"),
   ("EIC Onboarding Guide", "1. Onboarding")]

/-- `{str(s["name"]): int(s["id"])}`: a dict comprehension, so on duplicate
shelf names the last entry wins. -/
def shelfIdLookup (w : World) (nm : String) : Option Int :=
  ((w.shelvesData.reverse).find? (fun s => s.name = nm)).map (fun s => s.id)

/-- `list_unshelved_books`: all books not on any shelf, sorted by id. -/
def list_unshelved_books (w : World) : List BRef :=
  let shelved := w.shelvesData.foldr (fun s acc => w.shelfBooks s.id ++ acc) []
  sortBRefById (w.booksData.filter (fun b => ¬ b.id ∈ shelved))

/-- The loop of `shelve_books` over the unshelved books; a missing shelf
raises (aborting the rest), membership skips, otherwise an action is recorded
and in apply mode a shelf update is issued. -/
def shelveLoop (w : World) (ap : Bool) :
    List BRef → (Except String (List (String × String))) × List Req
  | [] => (.ok [], [])
  | b :: rest =>
    let sname := (lookupAssoc book_to_shelf b.name).getD HOLDING_SHELF_NAME
    match shelfIdLookup w sname with
    | none => (.error ("Shelf not found: " ++ sname), [])
    | some sid =>
      let cur := w.shelfBooks sid
      if b.id ∈ cur then shelveLoop w ap rest
      else
        let r := shelveLoop w ap rest
        (r.1.map (fun l => (b.name, sname) :: l),
         (if ap then [Req.putShelfBooks sid (pySortInt (cur ++ [b.id]))] else []) ++ r.2)

/-- `shelve_books(api, apply)`. -/
def shelve_books (w : World) (ap : Bool) :
    (Except String (List (String × String))) × List Req :=
  shelveLoop w ap (list_unshelved_books w)

/-- `ensure_holding_book(api)`: note it takes no apply flag — its create and
shelf update are issued in every mode. -/
def ensure_holding_book (w : World) : Except String (Int × List Req) :=
  match (w.shelvesData.find? (fun s => s.name = HOLDING_SHELF_NAME)).map (fun s => s.id) with
  | none => .error ("Holding shelf not found: " ++ HOLDING_SHELF_NAME)
  | some shelfId =>
    let found := (w.booksData.find? (fun b => b.name = HOLDING_BOOK_NAME)).map (fun b => b.id)
    let created : Int × List Req :=
      match found with
      | some i => (i, [])
      | none => (w.newBookId,
          [Req.postBook HOLDING_BOOK_NAME "Holding area for empty placeholder chapters."])
    let current := w.shelfBooks shelfId
    let t2 : List Req :=
      if created.1 ∈ current then []
      else [Req.putShelfBooks shelfId (pySortInt (current ++ [created.1]))]
    .ok (created.1, created.2 ++ t2)

/-- The outcome of one default `main` run of `organize-library.py` (no skip
flags): an error text if a step raised, the holding book id, and every
mutating request issued, in order. -/
structure MainOut where
  err : Option String
  holding : Option Int
  trace : List Req

/-- `main` of `organize-library.py` on the default path: shelving, holding
book, direct pages, empty chapters, junk pages.  The backup step touches no
remote state and is not modelled. -/
def mainRun (w : World) (ap : Bool) : MainOut :=
  let s := shelve_books w ap
  match s.1 with
  | .error e => ⟨some e, none, s.2⟩
  | .ok _ =>
    match ensure_holding_book w with
    | .error e => ⟨some e, none, s.2⟩
    | .ok hbt =>
      let m := move_direct_pages w ap
      let sw := move_empty_chapters w hbt.1 ap
      let j := delete_junk_pages w ap
      ⟨none, some hbt.1, s.2 ++ hbt.2 ++ m.trace ++ sw.trace ++ j.trace⟩

/-! ## `move_page` from `organize-inbox.py`

This is the one operation proved about repeated calls, so it threads the
store: its PUT reparents the page (the semantics of the BookStack page-update
endpoint). -/

/-- The record `move_page` returns: the Python dict keys `"from"` and `"to"`
are the fields `fro` and `toId`. -/
structure MoveRec where
  page_id : Int
  name : String
  fro : Option Int
  toId : Int
deriving DecidableEq

structure MPOut where
  changed : Bool
  record : MoveRec
  world : World
  trace : List Req

/-- `move_page(api, page_id, target_chapter_id, apply)`. -/
def move_page (w : World) (pid tgt : Int) (ap : Bool) : MPOut :=
  let page := w.pages pid
  let cur := page.chapter_id
  if cur = some tgt then ⟨false, ⟨pid, page.name, cur, tgt⟩, w, []⟩
  else if ap then
    ⟨true, ⟨pid, page.name, cur, tgt⟩,
     { w with pages := fun i => if i = pid then { w.pages i with chapter_id := some tgt }
                                else w.pages i },
     [Req.putPageChapter pid tgt]⟩
  else ⟨true, ⟨pid, page.name, cur, tgt⟩, w, []⟩

/-! ## Spec-side helper definitions used in theorem statements -/

def catMap {α β : Type} (f : α → List β) : List α → List β
  | [] => []
  | a :: l => f a ++ catMap f l

/-- The junk-report entry `delete_junk_pages` builds for a found page id. -/
def mkJunkEntry (w : World) (nm : String) (pid : Int) : JunkEntry :=
  ⟨pid, nm, (w.pages pid).book_id, (w.pages pid).chapter_id,
   is_effectively_empty_page (w.pages pid)⟩

/-- The requests the sweep is expected to issue for one qualifying chapter:
the direct relocate, and — exactly when the store rejects it — one retry under
the name tagged with the prior parent book's id. -/
def specSweepTrace (w : World) (hb bid : Int) (ch : CItem) : List Req :=
  match w.chapterPut ch.id none with
  | none => [Req.putChapterBook ch.id hb none]
  | some _ =>
    [Req.putChapterBook ch.id hb none,
     Req.putChapterBook ch.id hb (some (sweepName bid ch.name))]

/-- The failure record the sweep is expected to append for one qualifying
chapter: present exactly when both the direct relocate and the renamed retry
are rejected, carrying the second error text. -/
def specSweepFail (w : World) (bid : Int) (ch : CItem) : Option FailRec :=
  match w.chapterPut ch.id none with
  | none => none
  | some _ =>
    match w.chapterPut ch.id (some (sweepName bid ch.name)) with
    | none => none
    | some e2 => some ⟨bid, (w.bookRecord bid).name, ch.id, ch.name, e2⟩

/-- The sleep the spec prescribes for a rate-limited attempt `k`: the
server-supplied `Retry-After` when present and a positive integer, otherwise
`min(60, 2^k)`. -/
def spec429sleep (k : Nat) (ra : Option String) : Int :=
  match retryAfterInt? ra with
  | some n => if 0 < n then n else ((min 60 (2 ^ k) : Nat) : Int)
  | none => ((min 60 (2 ^ k) : Nat) : Int)

/-- The classifier reaches the lexical phase: the title has no numeric label,
or no candidate shares it. -/
def lexicalPhase (page_name : String) (chapters : List Chap) : Prop :=
  match extract_numeric_pfx page_name with
  | none => True
  | some p => chapters.filter (fun c => c.pfx = some p) = []

/-! ## Concrete inputs for witnesses and counterexamples -/

def pageDefault : PageRec := ⟨"", none, none, .pnone, .pnone, .pnone⟩

/-- A store with the holding shelf but no holding book: the smallest state on
which a default dry run already issues mutating requests. -/
def wHolding : World where
  shelvesData := [⟨1, "9. Orphaned"⟩]
  shelfBooks := fun _ => []
  booksData := []
  bookRecord := fun _ => ⟨0, "", []⟩
  pages := fun _ => pageDefault
  search := fun _ => []
  newBookId := 77
  newChapterId := fun _ => 0
  chapterPut := fun _ _ => none

/-- A store whose search for `"New Page"` finds one effectively empty page
(id 3) and one with real content (id 2). -/
def wJunk : World :=
  { wHolding with
    search := fun nm =>
      if nm = "New Page" then [⟨"page", "New Page", 3⟩, ⟨"page", "New Page", 2⟩] else []
    pages := fun i =>
      if i = 2 then
        ⟨"New Page", none, some 1,
         .pstr "This body is clearly long enough to keep around, yes.", .pnone, .pnone⟩
      else ⟨"New Page", none, some 1, .pstr "<p> </p>", .pnone, .pnone⟩ }

/-- A store whose search for `"Test"` finds a page (id 4) whose `markdown`
field holds a non-string value. -/
def wOther : World :=
  { wHolding with
    search := fun nm => if nm = "Test" then [⟨"page", "Test", 4⟩] else []
    pages := fun _ => ⟨"Test", none, some 1, .pother true, .pnone, .pnone⟩ }

/-- A store with one page (id 5) sitting in chapter 9. -/
def wMove : World :=
  { wHolding with
    pages := fun i =>
      if i = 5 then ⟨"pg", some 9, none, .pnone, .pnone, .pnone⟩ else pageDefault }

/-- The candidate pair of the spec's prefix-precedence example. -/
def demoChapA : Chap := ⟨936, "3.1 AutoCAD Core Skills", {"autocad", "core", "skills"}, some "3.1"⟩

def demoChapB : Chap := ⟨951, "3.3 Navisworks", {"navisworks"}, some "3.3"⟩

def demoChaps : List Chap := [demoChapA, demoChapB]

/-- Two candidates sharing the numeric label `2.1`, with no token overlap
with the title `"2.1 zz"`. -/
def demo2A : Chap := ⟨1, "2.1 A", {"alpha"}, some "2.1"⟩

def demo2B : Chap := ⟨2, "2.1 B", {"beta"}, some "2.1"⟩

def demo2Chaps : List Chap := [demo2A, demo2B]

/-- The candidate of the spec's strong-single-token example. -/
def groundingChap : Chap := ⟨5, "Grounding", {"grounding"}, none⟩

/-- An oracle answering every attempt with a plain 404. -/
def o404 : Nat → HResp := fun _ => ⟨404, none, "nope"⟩

/-- A page whose body is a short plain string. -/
def pShort : PageRec := ⟨"x", none, none, .pstr "short", .pnone, .pnone⟩

/-! # Theorems -/

/-! ## Dry-run traces -/

theorem junkLoop_trace_dry (w : World) (nm : String) (pids : List Int) :
    (junkLoopPids w false nm pids).trace = [] := by
  induction pids with
  | nil => rfl
  | cons p rest ih =>
    simp only [junkLoopPids]
    split <;> simpa using ih

theorem delete_junk_trace_dry (w : World) : (delete_junk_pages w false).trace = [] := by
  simp [delete_junk_pages, junkLoop_trace_dry]

theorem sweepChapters_trace_dry (w : World) (hb bid : Int) (chs : List CItem) :
    (sweepChapters w hb bid false chs).trace = [] := by
  induction chs with
  | nil => rfl
  | cons c cs ih => simp [sweepChapters, sweepAppend, sweepChapter, ih]

theorem sweepBooks_trace_dry (w : World) (hb : Int) (bids : List Int) :
    (sweepBooks w hb false bids).trace = [] := by
  induction bids with
  | nil => rfl
  | cons b rest ih =>
    simp only [sweepBooks]
    split
    · exact ih
    · simp [sweepAppend, sweepChapters_trace_dry, ih]

theorem move_empty_chapters_trace_dry (w : World) (hb : Int) :
    (move_empty_chapters w hb false).trace = [] :=
  sweepBooks_trace_dry w hb _

theorem ensure_inbox_trace_dry (w : World) (book : BookRec) :
    (ensure_inbox_chapter w book false).2 = [] := by
  simp only [ensure_inbox_chapter]
  split <;> simp

theorem mdpStep_trace_dry (w : World) (book : BookRec) (chs : List Chap)
    (p : CItem) (inbox : Option Int) (acc : MDPOut) :
    (mdpStep w false book chs p inbox acc).2.2.2.trace = acc.trace := by
  simp only [mdpStep]
  cases (best_chapter_for_page p.name chs).1 with
  | some t => rfl
  | none =>
    cases inbox with
    | some iid => rfl
    | none =>
      simp only [ensure_inbox_trace_dry, List.append_nil]
      split <;> rfl

theorem mdpPages_trace_dry (w : World) (bid : Int) (book : BookRec) (chs : List Chap)
    (pids : List CItem) : ∀ inbox acc,
    (mdpPages w false bid book chs pids inbox acc).trace = acc.trace := by
  induction pids with
  | nil => intro inbox acc; rfl
  | cons p rest ih =>
    intro inbox acc
    simp only [mdpPages]
    cases hs : (mdpStep w false book chs p inbox acc).1 with
    | none => exact (ih _ _).trans (mdpStep_trace_dry w book chs p inbox acc)
    | some tgt =>
      refine (ih _ _).trans ?_
      split <;> simpa using mdpStep_trace_dry w book chs p inbox acc

theorem mdpBooks_trace_dry (w : World) (bids : List Int) : ∀ acc,
    (mdpBooks w false bids acc).trace = acc.trace := by
  induction bids with
  | nil => intro acc; rfl
  | cons b rest ih =>
    intro acc
    simp only [mdpBooks]
    split
    · exact ih _
    · exact (ih _).trans (mdpPages_trace_dry _ _ _ _ _ _ _)

theorem move_direct_pages_trace_dry (w : World) : (move_direct_pages w false).trace = [] :=
  mdpBooks_trace_dry w _ _

theorem shelveLoop_trace_dry (w : World) (bs : List BRef) :
    (shelveLoop w false bs).2 = [] := by
  induction bs with
  | nil => rfl
  | cons b rest ih =>
    simp only [shelveLoop]
    split
    · rfl
    · split
      · exact ih
      · simpa using ih

/-- C1 (amended): in dry-run mode, each of the apply-gated operations —
shelving, direct-page moves, the empty-chapter sweep, and junk deletion —
issues no create, update or delete request to the remote store, on every
input repository state (while each still returns its full report).  The
amendment: `ensure_holding_book`, which the run invokes regardless of mode,
is excluded — it may create the holding book and update the holding shelf
even in dry-run, so a dry run as a whole is not read-only. -/
theorem c1_dryrun_gated_ops_read_only (w : World) (hb : Int) :
    (shelve_books w false).2 = [] ∧ (move_direct_pages w false).trace = [] ∧
    (move_empty_chapters w hb false).trace = [] ∧
    (delete_junk_pages w false).trace = [] :=
  ⟨shelveLoop_trace_dry w _, move_direct_pages_trace_dry w,
   move_empty_chapters_trace_dry w hb, delete_junk_trace_dry w⟩

/-- C1 counterexample: on a store holding the `9. Orphaned` shelf but no
`Empty Chapters Holding` book, the default dry run (`apply = false`) completes
without error and issues a create request (the holding book POST) to the
remote store — so a dry run is not a read-only simulation. -/
theorem c1_counterexample :
    (mainRun wHolding false).err = none ∧
    Req.postBook HOLDING_BOOK_NAME "Holding area for empty placeholder chapters."
      ∈ (mainRun wHolding false).trace := by
  constructor
  · rfl
  · decide

/-- C3: `move_page` is idempotent.  If the page's current chapter already
equals the target, the call returns `changed = false` with a record whose
`from` field equals its `to` field, in either mode; and two successive apply
calls with the same page and target never both return `changed = true`. -/
theorem c3_move_page_idempotent (w : World) (pid tgt : Int) (ap : Bool) :
    ((w.pages pid).chapter_id = some tgt →
      (move_page w pid tgt ap).changed = false ∧
      (move_page w pid tgt ap).record.fro = some (move_page w pid tgt ap).record.toId) ∧
    ¬ ((move_page w pid tgt true).changed = true ∧
       (move_page (move_page w pid tgt true).world pid tgt true).changed = true) := by
  constructor
  · intro h
    simp [move_page, h]
  · rintro ⟨h1, h2⟩
    by_cases hc : (w.pages pid).chapter_id = some tgt
    · simp [move_page, hc] at h1
    · simp [move_page, hc] at h2

/-- Witness for C3 at a concrete store: page 5 already sits in chapter 9. -/
theorem c3_witness :
    (wMove.pages 5).chapter_id = some 9 ∧
    (move_page wMove 5 9 true).changed = false ∧
    (move_page wMove 5 9 true).record.fro = some (move_page wMove 5 9 true).record.toId := by
  refine ⟨by decide, ?_⟩
  exact (c3_move_page_idempotent wMove 5 9 true).1 (by decide)

/-! ## C5: the empty-chapter sweep -/

theorem sweepChapter_trace_apply (w : World) (hb bid : Int) (ch : CItem) :
    (sweepChapter w hb bid true ch).trace = specSweepTrace w hb bid ch := by
  simp only [sweepChapter, specSweepTrace]
  cases h1 : w.chapterPut ch.id none with
  | none => simp
  | some e =>
    cases h2 : w.chapterPut ch.id (some (sweepName bid ch.name)) with
    | none => simp
    | some e2 => simp

theorem sweepChapter_fail_apply (w : World) (hb bid : Int) (ch : CItem) :
    (sweepChapter w hb bid true ch).failures = (specSweepFail w bid ch).toList := by
  simp only [sweepChapter, specSweepFail]
  cases h1 : w.chapterPut ch.id none with
  | none => simp
  | some e =>
    cases h2 : w.chapterPut ch.id (some (sweepName bid ch.name)) with
    | none => simp
    | some e2 => simp

theorem sweepChapter_count_apply (w : World) (hb bid : Int) (ch : CItem) :
    (sweepChapter w hb bid true ch).moved + (sweepChapter w hb bid true ch).failures.length
      = 1 := by
  simp only [sweepChapter]
  cases h1 : w.chapterPut ch.id none with
  | none => simp
  | some e =>
    cases h2 : w.chapterPut ch.id (some (sweepName bid ch.name)) with
    | none => simp
    | some e2 => simp

theorem sweepChapters_spec (w : World) (hb bid : Int) (chs : List CItem) :
    (sweepChapters w hb bid true chs).trace = catMap (specSweepTrace w hb bid) chs ∧
    (sweepChapters w hb bid true chs).failures
      = catMap (fun ch => (specSweepFail w bid ch).toList) chs ∧
    (sweepChapters w hb bid true chs).moved + (sweepChapters w hb bid true chs).failures.length
      = chs.length := by
  induction chs with
  | nil => exact ⟨rfl, rfl, rfl⟩
  | cons c cs ih =>
    refine ⟨?_, ?_, ?_⟩
    · simp [sweepChapters, sweepAppend, catMap, sweepChapter_trace_apply, ih.1]
    · simp [sweepChapters, sweepAppend, catMap, sweepChapter_fail_apply, ih.2.1]
    · have h1 := sweepChapter_count_apply w hb bid c
      have h2 := ih.2.2
      simp only [sweepChapters, sweepAppend, List.length_cons, List.length_append]
      omega

theorem sweepBooks_spec (w : World) (hb : Int) (bids : List Int) :
    (sweepBooks w hb true bids).trace
      = catMap (fun bid => catMap (specSweepTrace w hb bid) (emptyChaptersOf w bid))
          (bids.filter (fun b => b ≠ hb)) ∧
    (sweepBooks w hb true bids).failures
      = catMap (fun bid => catMap (fun ch => (specSweepFail w bid ch).toList)
          (emptyChaptersOf w bid)) (bids.filter (fun b => b ≠ hb)) ∧
    (sweepBooks w hb true bids).moved + (sweepBooks w hb true bids).failures.length
      = (catMap (fun bid => emptyChaptersOf w bid) (bids.filter (fun b => b ≠ hb))).length := by
  induction bids with
  | nil => exact ⟨rfl, rfl, rfl⟩
  | cons b rest ih =>
    by_cases hb' : b = hb
    · simpa [sweepBooks, hb', List.filter_cons] using ih
    · have hs := sweepChapters_spec w hb b (emptyChaptersOf w b)
      refine ⟨?_, ?_, ?_⟩
      · simp [sweepBooks, hb', sweepAppend, List.filter_cons, catMap, hs.1, ih.1]
      · simp [sweepBooks, hb', sweepAppend, List.filter_cons, catMap, hs.2.1, ih.2.1]
      · have h2 := ih.2.2
        have h1 := hs.2.2
        simp only [sweepBooks, hb', if_neg hb', sweepAppend, List.filter_cons,
          decide_not, List.length_append, catMap] at h2 h1 ⊢
        simp [hb', catMap, List.length_append] at h2 h1 ⊢
        omega

/-- C5: in apply mode the empty-container sweep, on every store and for every
rejection pattern of the remote, issues for each qualifying chapter the direct
relocate and — exactly when the store rejects it — exactly one retry renamed
with the `[From <book id>]` tag of its prior parent; chapters whose retry is
also rejected are appended, with the error text, to the `failures` list; and
every qualifying chapter of every non-holding book is processed (moved and
failed chapters partition them), so no single failure aborts the sweep. -/
theorem c5_sweep_retry_and_resilience (w : World) (hb : Int) :
    (move_empty_chapters w hb true).trace
      = catMap (fun bid => catMap (specSweepTrace w hb bid) (emptyChaptersOf w bid))
          (((w.booksData.map (fun b => b.id))).filter (fun b => b ≠ hb)) ∧
    (move_empty_chapters w hb true).failures
      = catMap (fun bid => catMap (fun ch => (specSweepFail w bid ch).toList)
          (emptyChaptersOf w bid)) (((w.booksData.map (fun b => b.id))).filter (fun b => b ≠ hb)) ∧
    (move_empty_chapters w hb true).moved + (move_empty_chapters w hb true).failures.length
      = (catMap (fun bid => emptyChaptersOf w bid)
          (((w.booksData.map (fun b => b.id))).filter (fun b => b ≠ hb))).length :=
  sweepBooks_spec w hb _

/-! ## C2 and C10: the junk detector -/

theorem junkLoop_trace_mem (w : World) (ap : Bool) (nm : String) (pids : List Int)
    (q : Int) : Req.deletePage q ∈ (junkLoopPids w ap nm pids).trace →
    is_effectively_empty_page (w.pages q) = true ∧ ap = true := by
  induction pids with
  | nil => intro h; exact absurd h (List.not_mem_nil _)
  | cons pid rest ih =>
    intro h
    cases he : is_effectively_empty_page (w.pages pid) with
    | true =>
      simp only [junkLoopPids, he, if_true] at h
      rcases List.mem_append.mp h with h1 | h2
      · cases hap : ap with
        | false => simp [hap] at h1
        | true =>
          simp only [hap, if_true, List.mem_singleton] at h1
          cases h1
          exact ⟨he, rfl⟩
      · exact ih h2
    | false =>
      simp only [junkLoopPids, he, Bool.false_eq_true, if_false] at h
      exact ih h

theorem junkLoop_kept_mem (w : World) (ap : Bool) (nm : String) (pids : List Int)
    (pid : Int) : pid ∈ pids → is_effectively_empty_page (w.pages pid) = false →
    mkJunkEntry w nm pid ∈ (junkLoopPids w ap nm pids).kept := by
  induction pids with
  | nil => intro h; exact absurd h (List.not_mem_nil _)
  | cons p rest ih =>
    intro hmem hne
    rcases List.mem_cons.mp hmem with rfl | hr
    · simp only [junkLoopPids, hne, Bool.false_eq_true, if_false, mkJunkEntry]
      exact List.mem_cons_self _ _
    · cases he : is_effectively_empty_page (w.pages p) with
      | true =>
        simp only [junkLoopPids, he, if_true]
        exact ih hr hne
      | false =>
        simp only [junkLoopPids, he, Bool.false_eq_true, if_false]
        exact List.mem_cons_of_mem _ (ih hr hne)

theorem junkLoop_del_mem (w : World) (nm : String) (pids : List Int)
    (pid : Int) : pid ∈ pids → is_effectively_empty_page (w.pages pid) = true →
    Req.deletePage pid ∈ (junkLoopPids w true nm pids).trace := by
  induction pids with
  | nil => intro h; exact absurd h (List.not_mem_nil _)
  | cons p rest ih =>
    intro hmem he
    rcases List.mem_cons.mp hmem with rfl | hr
    · simp [junkLoopPids, he]
    · cases hp : is_effectively_empty_page (w.pages p) with
      | true =>
        simp only [junkLoopPids, hp, if_true]
        exact List.mem_append.mpr (Or.inr (ih hr he))
      | false =>
        simp only [junkLoopPids, hp, Bool.false_eq_true, if_false]
        exact ih hr he

/-- C2: the junk detector never deletes a placeholder-titled document whose
content classifies non-empty — in either mode no delete request for it is
issued and it is recorded in the `kept` list with its (non-empty)
classification; and conversely every delete the detector ever issues is for a
document classified effectively empty (and only in apply mode). -/
theorem c2_junk_never_deletes_nonempty (w : World) (ap : Bool) :
    (∀ nm pid, nm ∈ junkNames → pid ∈ find_pages_by_exact_name w nm →
      is_effectively_empty_page (w.pages pid) = false →
      ¬ Req.deletePage pid ∈ (delete_junk_pages w ap).trace ∧
      mkJunkEntry w nm pid ∈ (delete_junk_pages w ap).kept ∧
      (mkJunkEntry w nm pid).empty = false) ∧
    (∀ q, Req.deletePage q ∈ (delete_junk_pages w ap).trace →
      is_effectively_empty_page (w.pages q) = true ∧ ap = true) := by
  have htr : ∀ q, Req.deletePage q ∈ (delete_junk_pages w ap).trace →
      is_effectively_empty_page (w.pages q) = true ∧ ap = true := by
    intro q hq
    rcases List.mem_append.mp hq with h | h
    · exact junkLoop_trace_mem w ap _ _ q h
    · exact junkLoop_trace_mem w ap _ _ q h
  refine ⟨?_, htr⟩
  intro nm pid hnm hfind hne
  refine ⟨fun hmem => by simpa [hne] using (htr pid hmem).1, ?_, by simp [mkJunkEntry, hne]⟩
  have : nm = "New Page" ∨ nm = "Test" := by simpa [junkNames] using hnm
  rcases this with rfl | rfl
  · exact List.mem_append.mpr (Or.inl (junkLoop_kept_mem w ap _ _ pid hfind hne))
  · exact List.mem_append.mpr (Or.inr (junkLoop_kept_mem w ap _ _ pid hfind hne))

/-- Witness for C2: on `wJunk` in apply mode, the non-empty `New Page`
(id 2) is kept, not deleted. -/
theorem c2_witness :
    ("New Page" ∈ junkNames ∧ (2 : Int) ∈ find_pages_by_exact_name wJunk "New Page" ∧
     is_effectively_empty_page (wJunk.pages 2) = false) ∧
    (¬ Req.deletePage 2 ∈ (delete_junk_pages wJunk true).trace ∧
     mkJunkEntry wJunk "New Page" 2 ∈ (delete_junk_pages wJunk true).kept ∧
     (mkJunkEntry wJunk "New Page" 2).empty = false) :=
  ⟨⟨by decide, by decide, by decide⟩,
   (c2_junk_never_deletes_nonempty wJunk true).1 "New Page" 2 (by decide) (by decide)
     (by decide)⟩

/-- C10 (implicit): when a placeholder-titled document's resolved content
value is not a string, `is_effectively_empty_page` classifies it effectively
empty without inspecting any text, and in apply mode the junk detector issues
a delete for it. -/
theorem c10_nonstring_counts_empty :
    (∀ p : PageRec, (resolveRaw p).isStr = false → is_effectively_empty_page p = true) ∧
    (∀ (w : World) (nm : String) (pid : Int), nm ∈ junkNames →
      pid ∈ find_pages_by_exact_name w nm →
      (resolveRaw (w.pages pid)).isStr = false →
      Req.deletePage pid ∈ (delete_junk_pages w true).trace) := by
  have hcls : ∀ p : PageRec, (resolveRaw p).isStr = false →
      is_effectively_empty_page p = true := by
    intro p h
    unfold is_effectively_empty_page
    cases hr : resolveRaw p with
    | pstr s => rw [hr] at h; exact absurd h (by simp [PyVal.isStr])
    | pnone => rfl
    | pother b => rfl
  refine ⟨hcls, ?_⟩
  intro w nm pid hnm hfind hstr
  have he := hcls _ hstr
  have : nm = "New Page" ∨ nm = "Test" := by simpa [junkNames] using hnm
  rcases this with rfl | rfl
  · exact List.mem_append.mpr (Or.inl (junkLoop_del_mem w _ _ pid hfind he))
  · exact List.mem_append.mpr (Or.inr (junkLoop_del_mem w _ _ pid hfind he))

/-- Witness for C10: on `wOther` the `Test` page (id 4) carries a non-string
`markdown` value and is deleted by the apply-mode junk sweep. -/
theorem c10_witness :
    ((resolveRaw (wOther.pages 4)).isStr = false ∧ "Test" ∈ junkNames ∧
     (4 : Int) ∈ find_pages_by_exact_name wOther "Test") ∧
    (is_effectively_empty_page (wOther.pages 4) = true ∧
     Req.deletePage 4 ∈ (delete_junk_pages wOther true).trace) :=
  ⟨⟨by decide, by decide, by decide⟩,
   ⟨c10_nonstring_counts_empty.1 _ (by decide),
    c10_nonstring_counts_empty.2 wOther "Test" 4 (by decide) (by decide) (by decide)⟩⟩

/-! ## C4: the retry policy of `BookStackApi.request` -/

theorem delay429_spec (k : Nat) (ra : Option String) :
    delay429 k ra = spec429sleep k ra := by
  cases ra with
  | none => rfl
  | some s =>
    by_cases hs : s = ""
    · simp [delay429, spec429sleep, retryAfterInt?, hs]
    · cases hp : pyInt? s with
      | none => simp [delay429, spec429sleep, retryAfterInt?, hs, hp]
      | some n =>
        have h1 : delay429 k (some s)
            = if n ≤ 0 then ((min 60 (2 ^ k) : Nat) : Int) else n := by
          simp [delay429, hs, hp]
        have h2 : spec429sleep k (some s)
            = if 0 < n then n else ((min 60 (2 ^ k) : Nat) : Int) := by
          simp [spec429sleep, retryAfterInt?, hs, hp]
        rw [h1, h2]
        by_cases hn : n ≤ 0
        · rw [if_pos hn, if_neg (by omega)]
        · rw [if_neg hn, if_pos (by omega)]

theorem snippetOf_length_le (b : String) : (snippetOf b).length ≤ 200 := by
  have : (snippetOf b).length = (((pyStripL b.data).map
      (fun c => if c = '\n' then ' ' else c)).take 200).length := rfl
  rw [this, List.length_take]
  exact min_le_left _ _

theorem reqLoop_attempts_le (o : Nat → HResp) :
    ∀ fuel attempt last, attempt + fuel = 6 →
    (reqLoop o fuel attempt last).attempts ≤ 5 := by
  intro fuel
  induction fuel with
  | zero => intro attempt last h; simp [reqLoop]; omega
  | succ f ih =>
    intro attempt last h
    simp only [reqLoop]
    split
    · exact ih (attempt + 1) _ (by omega)
    · split
      · exact ih (attempt + 1) _ (by omega)
      · split
        · simpa using by omega
        · split <;> simpa using by omega

theorem reqLoop_sleeps (o : Nat → HResp) :
    ∀ fuel attempt last i d, 1 ≤ attempt →
    (reqLoop o fuel attempt last).sleeps[i]? = some d →
    ((o (attempt + i)).status = 429 ∧
      d = spec429sleep (attempt + i) ((o (attempt + i)).retryAfter)) ∨
    (500 ≤ (o (attempt + i)).status ∧ (o (attempt + i)).status < 600 ∧
      d = ((min 30 (2 ^ (attempt + i - 1)) : Nat) : Int)) := by
  intro fuel
  induction fuel with
  | zero => intro attempt last i d _ h; simp [reqLoop] at h
  | succ f ih =>
    intro attempt last i d h1 h
    simp only [reqLoop] at h
    split at h
    · rename_i hcond
      cases i with
      | zero =>
        simp only [List.getElem?_cons_zero, Option.some_inj] at h
        simp only [Nat.add_zero]
        exact Or.inl ⟨hcond.1, by rw [← h, delay429_spec]⟩
      | succ i =>
        simp only [List.getElem?_cons_succ] at h
        have := ih (attempt + 1) _ i d (by omega) h
        rwa [show attempt + 1 + i = attempt + (i + 1) by omega] at this
    · split at h
      · rename_i hcond
        cases i with
        | zero =>
          simp only [List.getElem?_cons_zero, Option.some_inj] at h
          simp only [Nat.add_zero]
          exact Or.inr ⟨hcond.1, hcond.2.1, h.symm⟩
        | succ i =>
          simp only [List.getElem?_cons_succ] at h
          have := ih (attempt + 1) _ i d (by omega) h
          rwa [show attempt + 1 + i = attempt + (i + 1) by omega] at this
      · split at h
        · simp at h
        · split at h <;> simp at h

theorem reqLoop_first_fail (o : Nat → HResp) :
    ∀ fuel attempt last k, attempt + fuel = 6 → 1 ≤ attempt → attempt ≤ k → k ≤ 5 →
    (∀ j, attempt ≤ j → j < k → retryableResp (o j)) → otherFailResp (o k) →
    (reqLoop o fuel attempt last).outcome = .failed (o k).status (snippetOf (o k).body) ∧
    (reqLoop o fuel attempt last).attempts = k := by
  intro fuel
  induction fuel with
  | zero => intro attempt last k h6 _ hak hk5 _ _; omega
  | succ f ih =>
    intro attempt last k h6 h1 hak hk5 hretry hother
    by_cases hek : attempt = k
    · subst hek
      have hne429 : ¬ ((o attempt).status = 429 ∧ attempt < 5) := fun hc =>
        hother.2.1 hc.1
      have hne5xx : ¬ (500 ≤ (o attempt).status ∧ (o attempt).status < 600 ∧ attempt < 5) :=
        fun hc => hother.2.2 ⟨hc.1, hc.2.1⟩
      simp only [reqLoop, if_neg hne429, if_neg hne5xx, if_pos hother.1]
      refine ⟨?_, ?_⟩ <;> first | rfl | trivial
    · have hlt : attempt < k := lt_of_le_of_ne hak hek
      have hret := hretry attempt (le_refl _) hlt
      have hrec := ih (attempt + 1) (some (o attempt)) k (by omega) (by omega) (by omega)
        hk5 (fun j hj1 hj2 => hretry j (by omega) hj2) hother
      rcases hret with h429 | h5xx
      · have hc : ((o attempt).status = 429 ∧ attempt < 5) := ⟨h429, by omega⟩
        simp only [reqLoop, if_pos hc]
        exact hrec
      · by_cases h429' : (o attempt).status = 429
        · have hc : ((o attempt).status = 429 ∧ attempt < 5) := ⟨h429', by omega⟩
          simp only [reqLoop, if_pos hc]
          exact hrec
        · have hne429 : ¬ ((o attempt).status = 429 ∧ attempt < 5) := fun hc => h429' hc.1
          have hc : (500 ≤ (o attempt).status ∧ (o attempt).status < 600 ∧ attempt < 5) :=
            ⟨h5xx.1, h5xx.2, by omega⟩
          simp only [reqLoop, if_neg hne429, if_pos hc]
          exact hrec

theorem reqLoop_failed_snippet (o : Nat → HResp) :
    ∀ fuel attempt last s sn,
    (reqLoop o fuel attempt last).outcome = .failed s sn → ∃ b, sn = snippetOf b := by
  intro fuel
  induction fuel with
  | zero => intro attempt last s sn h; simp [reqLoop] at h
  | succ f ih =>
    intro attempt last s sn h
    simp only [reqLoop] at h
    split at h
    · exact ih _ _ _ _ h
    · split at h
      · exact ih _ _ _ _ h
      · split at h
        · simp only [ReqOutcome.failed.injEq] at h
          exact ⟨(o attempt).body, h.2.symm⟩
        · split at h <;> simp at h

/-- C4: for every response oracle, `request` makes at most 5 attempts; each
sleep it performs belongs to a rate-limited attempt (server-supplied
`Retry-After` when present and a positive integer, otherwise
`min(60, 2^attempt)`) or to a server-side 5xx attempt
(`min(30, 2^(attempt-1))`); a non-success status that is neither 429 nor 5xx,
first occurring at attempt `k`, makes the call fail right there, without
retry, carrying that status and the body snippet; and every failure snippet is
bounded by 200 characters. -/
theorem c4_request_retry_policy (o : Nat → HResp) :
    (request o).attempts ≤ 5 ∧
    (∀ i d, (request o).sleeps[i]? = some d →
      ((o (i + 1)).status = 429 ∧ d = spec429sleep (i + 1) ((o (i + 1)).retryAfter)) ∨
      (500 ≤ (o (i + 1)).status ∧ (o (i + 1)).status < 600 ∧
        d = ((min 30 (2 ^ i) : Nat) : Int))) ∧
    (∀ k, 1 ≤ k → k ≤ 5 → (∀ j, 1 ≤ j → j < k → retryableResp (o j)) →
      otherFailResp (o k) →
      (request o).outcome = .failed (o k).status (snippetOf (o k).body) ∧
      (request o).attempts = k) ∧
    (∀ s sn, (request o).outcome = .failed s sn → sn.length ≤ 200) := by
  refine ⟨reqLoop_attempts_le o 5 1 none rfl, ?_, ?_, ?_⟩
  · intro i d h
    have := reqLoop_sleeps o 5 1 none i d (le_refl _) h
    rwa [show 1 + i = i + 1 by omega, show i + 1 - 1 = i by omega] at this
  · intro k hk1 hk5 hretry hother
    exact reqLoop_first_fail o 5 1 none k rfl (le_refl _) hk1 hk5 hretry hother
  · intro s sn h
    obtain ⟨b, rfl⟩ := reqLoop_failed_snippet o 5 1 none s sn h
    exact snippetOf_length_le b

/-- Witness for C4 at the constant-404 oracle: a plain 404 fails on the very
first attempt with its snippet. -/
theorem c4_witness :
    ((1 : Nat) ≤ 1 ∧ (1 : Nat) ≤ 5 ∧ (∀ j, 1 ≤ j → j < 1 → retryableResp (o404 j)) ∧
      otherFailResp (o404 1)) ∧
    ((request o404).outcome = .failed 404 (snippetOf "nope") ∧
      (request o404).attempts = 1) :=
  ⟨⟨le_refl _, by omega, fun j _ hj => absurd hj (by omega), by decide⟩,
   (c4_request_retry_policy o404).2.2.1 1 (le_refl _) (by omega)
     (fun j _ hj => absurd hj (by omega)) (by decide)⟩

/-! ## C7, C8, C9: the classifier -/

theorem pfxFold_go (toks : Finset String) :
    ∀ (chs : List Chap) (b : Option Chap) (s : Int),
    chs.foldl (pstep toks) (b, s) = (b, s) ∨
    ∃ ch, ch ∈ chs ∧
      chs.foldl (pstep toks) (b, s) = (some ch, ((toks ∩ ch.tokens).card : Int)) := by
  intro chs
  induction chs with
  | nil => intro b s; left; rfl
  | cons c cs ih =>
    intro b s
    simp only [List.foldl_cons]
    by_cases hlt : s < ((toks ∩ c.tokens).card : Int)
    · rw [show pstep toks (b, s) c = (some c, ((toks ∩ c.tokens).card : Int)) by
        simp [pstep, hlt]]
      rcases ih (some c) _ with h | ⟨ch, hm, he⟩
      · exact Or.inr ⟨c, List.mem_cons_self _ _, h⟩
      · exact Or.inr ⟨ch, List.mem_cons_of_mem _ hm, he⟩
    · rw [show pstep toks (b, s) c = (b, s) by simp [pstep, hlt]]
      rcases ih b s with h | ⟨ch, hm, he⟩
      · exact Or.inl h
      · exact Or.inr ⟨ch, List.mem_cons_of_mem _ hm, he⟩

theorem pfxFold_some (toks : Finset String) (c : Chap) (cs : List Chap) :
    ∃ ch, ch ∈ c :: cs ∧
      pfxFold toks (c :: cs) = (some ch, ((toks ∩ ch.tokens).card : Int)) := by
  have hstep : pstep toks (none, -1) c = (some c, ((toks ∩ c.tokens).card : Int)) := by
    simp only [pstep]
    rw [if_pos]
    exact lt_of_lt_of_le (by norm_num) (Int.ofNat_nonneg _)
  unfold pfxFold
  simp only [List.foldl_cons, hstep]
  rcases pfxFold_go toks cs (some c) _ with h | ⟨ch, hm, he⟩
  · exact ⟨c, List.mem_cons_self _ _, h⟩
  · exact ⟨ch, List.mem_cons_of_mem _ hm, he⟩

theorem pfxFold_zero (toks : Finset String) (c : Chap) (cs : List Chap)
    (h0 : ∀ ch ∈ c :: cs, (toks ∩ ch.tokens).card = 0) :
    pfxFold toks (c :: cs) = (some c, 0) := by
  have hstep : pstep toks (none, -1) c = (some c, 0) := by
    simp [pstep, h0 c (List.mem_cons_self _ _)]
  unfold pfxFold
  simp only [List.foldl_cons, hstep]
  have : ∀ (l : List Chap), (∀ ch ∈ l, (toks ∩ ch.tokens).card = 0) →
      l.foldl (pstep toks) (some c, 0) = (some c, 0) := by
    intro l
    induction l with
    | nil => intro _; rfl
    | cons d ds ih =>
      intro hl
      simp only [List.foldl_cons]
      rw [show pstep toks (some c, 0) d = (some c, 0) by
        simp [pstep, hl d (List.mem_cons_self _ _)]]
      exact ih (fun ch hch => hl ch (List.mem_cons_of_mem _ hch))
  exact this cs (fun ch hch => h0 ch (List.mem_cons_of_mem _ hch))

theorem lexFold_go (toks : Finset String) :
    ∀ (chs : List Chap) (acc : Option Chap × Int × Finset String),
    chs.foldl (lstep toks) acc = acc ∨
    ∃ ch, ch ∈ chs ∧ chs.foldl (lstep toks) acc
      = (some ch, ((toks ∩ ch.tokens).card : Int), toks ∩ ch.tokens) := by
  intro chs
  induction chs with
  | nil => intro acc; left; rfl
  | cons c cs ih =>
    intro acc
    simp only [List.foldl_cons]
    by_cases hlt : acc.2.1 < ((toks ∩ c.tokens).card : Int)
    · rw [show lstep toks acc c
          = (some c, ((toks ∩ c.tokens).card : Int), toks ∩ c.tokens) by
        simp [lstep, hlt]]
      rcases ih _ with h | ⟨ch, hm, he⟩
      · exact Or.inr ⟨c, List.mem_cons_self _ _, h⟩
      · exact Or.inr ⟨ch, List.mem_cons_of_mem _ hm, he⟩
    · rw [show lstep toks acc c = acc by simp [lstep, hlt]]
      rcases ih acc with h | ⟨ch, hm, he⟩
      · exact Or.inl h
      · exact Or.inr ⟨ch, List.mem_cons_of_mem _ hm, he⟩

theorem lexFold_inv (toks : Finset String) (chs : List Chap) (ch : Chap)
    (sc : Int) (inter : Finset String)
    (h : lexFold toks chs = (some ch, sc, inter)) :
    ch ∈ chs ∧ inter = toks ∩ ch.tokens ∧ sc = ((inter.card : Int)) := by
  rcases lexFold_go toks chs (none, -1, ∅) with hgo | ⟨ch', hm, he⟩
  · rw [lexFold] at h
    rw [hgo] at h
    exact absurd (congrArg Prod.fst h) (by simp)
  · rw [lexFold] at h
    rw [he] at h
    have h1 : some ch' = some ch := congrArg Prod.fst h
    have h2 : ((toks ∩ ch'.tokens).card : Int) = sc := congrArg (fun x => x.2.1) h
    have h3 : toks ∩ ch'.tokens = inter := congrArg (fun x => x.2.2) h
    cases Option.some.inj h1
    exact ⟨hm, h3.symm, by rw [← h3]; exact h2.symm⟩

/-- `t ∈ tokenize s` only for tokens of at least two characters. -/
theorem tokenize_mem_len (s t : String) (h : t ∈ tokenize s) : 2 ≤ t.length := by
  unfold tokenize at h
  rw [List.mem_toFinset] at h
  have := List.of_mem_filter h
  simpa using this

/-- C8: in the lexical phase, when the best token-set intersection has size
exactly 1, the classifier accepts the best candidate with reason
`weak-overlap:<token>` exactly when the single overlapping token is not in the
curated weak list, and otherwise returns no match with `low-confidence`. -/
theorem c8_weak_single_token (name : String) (chapters : List Chap) (ch : Chap)
    (inter : Finset String)
    (hphase : lexicalPhase name chapters)
    (hfold : lexFold (tokenize name) chapters = (some ch, 1, inter)) :
    ∃ t, inter = {t} ∧ inter = tokenize name ∩ ch.tokens ∧
      ((¬ t ∈ WEAK_TOKENS →
         best_chapter_for_page name chapters = (some ch.id, "weak-overlap:" ++ t)) ∧
       (t ∈ WEAK_TOKENS →
         best_chapter_for_page name chapters = (none, "low-confidence"))) := by
  obtain ⟨hm, hi, hsc⟩ := lexFold_inv _ _ _ _ _ hfold
  have hcard : inter.card = 1 := by
    have : ((inter.card : Int)) = 1 := hsc.symm
    exact_mod_cast this
  obtain ⟨t, ht⟩ := Finset.card_eq_one.mp hcard
  have htmem : t ∈ tokenize name := by
    have : t ∈ inter := ht ▸ Finset.mem_singleton_self t
    rw [hi] at this
    exact (Finset.mem_inter.mp this).1
  have htne : t ≠ "" := by
    intro he
    have := tokenize_mem_len name t htmem
    rw [he] at this
    simp [String.length] at this
  have hlex : best_chapter_for_page name chapters = lexPhase name chapters := by
    unfold best_chapter_for_page
    cases hpfx : extract_numeric_pfx name with
    | none => rfl
    | some p =>
      unfold lexicalPhase at hphase
      simp only [hpfx] at hphase
      simp only [hphase]
  have hsort : (inter.sort (fun a b => a ≤ b)) = [t] := by
    rw [ht]
    exact Finset.sort_singleton _ t
  have hlp : lexPhase name chapters
      = (if t ≠ "" ∧ ¬ t ∈ WEAK_TOKENS then (some ch.id, "weak-overlap:" ++ t)
         else (none, "low-confidence")) := by
    simp only [lexPhase, hfold, hsort, List.head?_cons, Option.getD_some]
    rw [if_neg (by norm_num), if_neg (by norm_num)]
  refine ⟨t, ht, hi ▸ ht ▸ rfl, ?_, ?_⟩
  · intro hw
    rw [hlex, hlp, if_pos ⟨htne, hw⟩]
  · intro hw
    rw [hlex, hlp, if_neg (fun hc => hc.2 hw)]

/-- Witness for C8 at the spec's strong-single-token example: `"Grounding
Basics"` against a candidate with tokens `{"grounding"}`. -/
theorem c8_witness :
    (lexicalPhase "Grounding Basics" [groundingChap] ∧
     lexFold (tokenize "Grounding Basics") [groundingChap]
       = (some groundingChap, 1, ({"grounding"} : Finset String))) ∧
    best_chapter_for_page "Grounding Basics" [groundingChap]
      = (some 5, "weak-overlap:" ++ "grounding") := by
  have h1 : lexicalPhase "Grounding Basics" [groundingChap] := by
    unfold lexicalPhase
    rw [show extract_numeric_pfx "Grounding Basics" = none from by decide]
    trivial
  have h2 : lexFold (tokenize "Grounding Basics") [groundingChap]
      = (some groundingChap, 1, ({"grounding"} : Finset String)) := by decide
  obtain ⟨t, ht, _, hacc, _⟩ := c8_weak_single_token _ _ _ _ h1 h2
  have htg : t = "grounding" := (Finset.singleton_inj.mp ht.symm)
  subst htg
  exact ⟨⟨h1, h2⟩, hacc (by decide)⟩

/-- C7 counterexample: on the spec's own example the reason string is
`"prefix:3.1"`, not `"prefix"`. -/
theorem c7_counterexample :
    (best_chapter_for_page "3.1 AutoCAD Basics" demoChaps).2 = "prefix:3.1" ∧
    ¬ (best_chapter_for_page "3.1 AutoCAD Basics" demoChaps).2 = "prefix" := by
  constructor
  · decide
  · decide

/-- C7 (amended): when the title has a leading numeric-dotted label and
exactly one candidate's label equals it, the classifier returns that candidate
with reason `"prefix:<label>"`; in particular `"3.1 AutoCAD Basics"` against
the demo candidates returns the `"3.1"` candidate with reason `"prefix:3.1"`. -/
theorem c7_prefix_unique :
    (∀ (name : String) (chapters : List Chap) (p : String) (ch : Chap),
      extract_numeric_pfx name = some p →
      chapters.filter (fun c => c.pfx = some p) = [ch] →
      best_chapter_for_page name chapters = (some ch.id, "prefix:" ++ p)) ∧
    best_chapter_for_page "3.1 AutoCAD Basics" demoChaps
      = (some 936, "prefix:" ++ "3.1") := by
  constructor
  · intro name chapters p ch h1 h2
    unfold best_chapter_for_page
    simp only [h1, h2]
  · decide

/-- Witness for C7 at the demo inputs. -/
theorem c7_witness :
    (extract_numeric_pfx "3.1 AutoCAD Basics" = some "3.1" ∧
     demoChaps.filter (fun c => c.pfx = some "3.1") = [demoChapA]) ∧
    best_chapter_for_page "3.1 AutoCAD Basics" demoChaps
      = (some demoChapA.id, "prefix:" ++ "3.1") :=
  ⟨⟨by decide, by decide⟩,
   c7_prefix_unique.1 "3.1 AutoCAD Basics" demoChaps "3.1" demoChapA (by decide) (by decide)⟩

/-- C9 (implicit): when the title's numeric label is shared by more than one
candidate, the classifier always answers from that group with reason
`"prefix+overlap:<label>:<score>"` — it never returns no-match and never falls
through to the lexical phase — and with zero overlap everywhere the first
candidate of the group is chosen, reason `"prefix+overlap:<label>:0"`. -/
theorem c9_prefix_group (name : String) (chapters : List Chap) (p : String)
    (h1 : extract_numeric_pfx name = some p)
    (h2 : 2 ≤ (chapters.filter (fun c => c.pfx = some p)).length) :
    (∃ ch, ch ∈ chapters.filter (fun c => c.pfx = some p) ∧
       best_chapter_for_page name chapters
         = (some ch.id, "prefix+overlap:" ++ p ++ ":" ++
             toString (((tokenize name ∩ ch.tokens).card : Int)))) ∧
    ((∀ ch ∈ chapters.filter (fun c => c.pfx = some p),
        (tokenize name ∩ ch.tokens).card = 0) →
      ∃ c1 rest, chapters.filter (fun c => c.pfx = some p) = c1 :: rest ∧
        best_chapter_for_page name chapters
          = (some c1.id, "prefix+overlap:" ++ p ++ ":0")) := by
  cases hfil : chapters.filter (fun c => c.pfx = some p) with
  | nil => rw [hfil] at h2; simp at h2
  | cons c1 tail =>
    cases tail with
    | nil => rw [hfil] at h2; simp at h2
    | cons c2 rest =>
      constructor
      · obtain ⟨ch, hm, he⟩ := pfxFold_some (tokenize name) c1 (c2 :: rest)
        refine ⟨ch, hfil ▸ hm, ?_⟩
        unfold best_chapter_for_page
        simp only [h1, hfil, he]
      · intro hzero
        have he := pfxFold_zero (tokenize name) c1 (c2 :: rest) hzero
        refine ⟨c1, c2 :: rest, rfl, ?_⟩
        unfold best_chapter_for_page
        simp only [h1, hfil, he]
        rw [show toString (0 : Int) = "0" from rfl, String.append_assoc,
          show (":" ++ "0" : String) = ":0" from rfl]

/-- Witness for C9: `"2.1 zz"` against two candidates both labelled `2.1`
with zero token overlap. -/
theorem c9_witness :
    (extract_numeric_pfx "2.1 zz" = some "2.1" ∧
     2 ≤ (demo2Chaps.filter (fun c => c.pfx = some "2.1")).length ∧
     (∀ ch ∈ demo2Chaps.filter (fun c => c.pfx = some "2.1"),
        (tokenize "2.1 zz" ∩ ch.tokens).card = 0)) ∧
    best_chapter_for_page "2.1 zz" demo2Chaps
      = (some demo2A.id, "prefix+overlap:" ++ "2.1" ++ ":0") := by
  refine ⟨⟨by decide, by decide, by decide⟩, ?_⟩
  obtain ⟨c1, rest, hfil, hbest⟩ :=
    (c9_prefix_group "2.1 zz" demo2Chaps "2.1" (by decide) (by decide)).2 (by decide)
  have : demo2A = c1 := by
    have hfil2 : demo2Chaps.filter (fun c => c.pfx = some "2.1") = [demo2A, demo2B] := by
      decide
    rw [hfil2] at hfil
    exact (List.cons.injEq _ _ _ _ ▸ hfil).1
  rw [← this] at hbest
  exact hbest

/-! ## C6: machinery — list scanning lemmas -/

/-- All characters of a list are (modelled) whitespace. -/
def wsOnly (l : List Char) : Prop := ∀ c ∈ l, isPyWs c = true

/-- No character of a list is whitespace. -/
def nwsOnly (l : List Char) : Prop := ∀ c ∈ l, isPyWs c = false

theorem takeWhile_append_stop (p : Char → Bool) :
    ∀ {u : List Char} (v : List Char), (∃ x ∈ u, p x = false) →
    (u ++ v).takeWhile p = u.takeWhile p := by
  intro u
  induction u with
  | nil => intro v h; exact absurd h (by simp)
  | cons a u' ih =>
    intro v h
    cases hpa : p a with
    | false => simp [List.takeWhile_cons, hpa]
    | true =>
      obtain ⟨x, hx, hpx⟩ := h
      rcases List.mem_cons.mp hx with rfl | hx'
      · rw [hpa] at hpx; cases hpx
      · simp only [List.cons_append, List.takeWhile_cons, hpa, if_true]
        rw [ih v ⟨x, hx', hpx⟩]

theorem takeWhile_append_all (p : Char → Bool) :
    ∀ {u : List Char} (v : List Char), (∀ x ∈ u, p x = true) →
    (u ++ v).takeWhile p = u ++ v.takeWhile p := by
  intro u
  induction u with
  | nil => intro v _; rfl
  | cons a u' ih =>
    intro v h
    simp only [List.cons_append, List.takeWhile_cons, h a (List.mem_cons_self _ _), if_true]
    rw [ih v (fun x hx => h x (List.mem_cons_of_mem _ hx))]

theorem dropWhile_append_stop (p : Char → Bool) :
    ∀ {u : List Char} (v : List Char), (∃ x ∈ u, p x = false) →
    (u ++ v).dropWhile p = u.dropWhile p ++ v := by
  intro u
  induction u with
  | nil => intro v h; exact absurd h (by simp)
  | cons a u' ih =>
    intro v h
    cases hpa : p a with
    | false => simp [List.dropWhile_cons, hpa]
    | true =>
      obtain ⟨x, hx, hpx⟩ := h
      rcases List.mem_cons.mp hx with rfl | hx'
      · rw [hpa] at hpx; cases hpx
      · simp only [List.cons_append, List.dropWhile_cons, hpa, if_true]
        exact ih v ⟨x, hx', hpx⟩

theorem dropWhile_append_all (p : Char → Bool) :
    ∀ {u : List Char} (v : List Char), (∀ x ∈ u, p x = true) →
    (u ++ v).dropWhile p = v.dropWhile p := by
  intro u
  induction u with
  | nil => intro v _; rfl
  | cons a u' ih =>
    intro v h
    simp only [List.cons_append, List.dropWhile_cons, h a (List.mem_cons_self _ _), if_true]
    exact ih v (fun x hx => h x (List.mem_cons_of_mem _ hx))

theorem dropWhile_eq_self_of_head (p : Char → Bool) {c : Char} (cs : List Char)
    (h : p c = false) : (c :: cs).dropWhile p = c :: cs := by
  simp [List.dropWhile_cons, h]

theorem dropWhile_head_not (p : Char → Bool) :
    ∀ {l r : List Char} {x : Char}, l.dropWhile p = x :: r → p x = false := by
  intro l
  induction l with
  | nil => intro r x h; cases h
  | cons a l' ih =>
    intro r x h
    cases hpa : p a with
    | false =>
      rw [List.dropWhile_cons, hpa] at h
      simp only [Bool.false_eq_true, if_false] at h
      cases h
      exact hpa
    | true =>
      rw [List.dropWhile_cons, hpa] at h
      simp only [if_true] at h
      exact ih h

theorem dropWhile_eq_drop_takeWhile (p : Char → Bool) (l : List Char) :
    l.dropWhile p = l.drop (l.takeWhile p).length :=
  calc l.dropWhile p
      = (l.takeWhile p ++ l.dropWhile p).drop (l.takeWhile p).length :=
        (List.drop_left _ _).symm
    _ = l.drop (l.takeWhile p).length := by
        rw [List.takeWhile_append_dropWhile]

/-- Fuel irrelevance: any fuel at least the input length gives the same scan. -/
theorem substCountF_fuel (tryf : List Char → Option Nat) :
    ∀ (f g : Nat) (l : List Char), l.length ≤ f → l.length ≤ g →
    substCountF tryf f l = substCountF tryf g l := by
  intro f
  induction f with
  | zero =>
    intro g l hf _
    have : l = [] := List.eq_nil_of_length_eq_zero (Nat.le_zero.mp hf)
    subst this
    cases g <;> rfl
  | succ f ih =>
    intro g l hf hg
    cases l with
    | nil => cases g <;> rfl
    | cons c cs =>
      cases g with
      | zero => simp at hg
      | succ g =>
        cases ht : tryf (c :: cs) with
        | none =>
          simp only [substCountF, ht]
          rw [ih g cs (by simpa using hf) (by simpa using hg)]
        | some k =>
          cases k with
          | zero =>
            simp only [substCountF, ht]
            rw [ih g cs (by simpa using hf) (by simpa using hg)]
          | succ n =>
            simp only [substCountF, ht]
            rw [ih g (cs.drop n) (by simp [List.length_drop, Nat.lt_succ_iff] at hf ⊢; omega)
              (by simp [List.length_drop, Nat.lt_succ_iff] at hg ⊢; omega)]

theorem substCount_nil (tryf : List Char → Option Nat) : substCount tryf [] = [] := rfl

theorem substCount_cons_none {tryf : List Char → Option Nat} {c : Char} {cs : List Char}
    (h : tryf (c :: cs) = none) :
    substCount tryf (c :: cs) = c :: substCount tryf cs := by
  unfold substCount
  simp only [List.length_cons, substCountF, h]

theorem substCount_cons_some {tryf : List Char → Option Nat} {c : Char} {cs : List Char}
    {n : Nat} (h : tryf (c :: cs) = some (n + 1)) :
    substCount tryf (c :: cs) = ' ' :: substCount tryf (cs.drop n) := by
  unfold substCount
  simp only [List.length_cons, substCountF, h]
  rw [substCountF_fuel tryf cs.length (cs.drop n).length (cs.drop n)
    (by simp [List.length_drop]) (le_refl _)]

theorem substCount_cons_zero {tryf : List Char → Option Nat} {c : Char} {cs : List Char}
    (h : tryf (c :: cs) = some 0) :
    substCount tryf (c :: cs) = c :: substCount tryf cs := by
  unfold substCount
  simp only [List.length_cons, substCountF, h]

theorem wordsOfF_fuel : ∀ (f g : Nat) (l : List Char), l.length ≤ f → l.length ≤ g →
    wordsOfF f l = wordsOfF g l := by
  intro f
  induction f with
  | zero =>
    intro g l hf _
    have : l = [] := List.eq_nil_of_length_eq_zero (Nat.le_zero.mp hf)
    subst this
    cases g <;> rfl
  | succ f ih =>
    intro g l hf hg
    cases l with
    | nil => cases g <;> rfl
    | cons c cs =>
      cases g with
      | zero => simp at hg
      | succ g =>
        simp only [wordsOfF]
        cases hc : isPyWs c with
        | true =>
          simp only [if_true]
          exact ih g cs (by simpa using hf) (by simpa using hg)
        | false =>
          simp only [Bool.false_eq_true, if_false]
          rw [ih g (cs.dropWhile (fun x => ¬ isPyWs x))
            (le_trans ((List.dropWhile_sublist _).length_le) (by simpa using hf))
            (le_trans ((List.dropWhile_sublist _).length_le) (by simpa using hg))]

theorem wordsOf_nil : wordsOf [] = [] := rfl

theorem wordsOf_cons_ws {c : Char} {cs : List Char} (h : isPyWs c = true) :
    wordsOf (c :: cs) = wordsOf cs := by
  unfold wordsOf
  simp only [List.length_cons, wordsOfF, h, if_true]

theorem wordsOf_cons_nws {c : Char} {cs : List Char} (h : isPyWs c = false) :
    wordsOf (c :: cs) = (c :: cs.takeWhile (fun x => ¬ isPyWs x))
      :: wordsOf (cs.dropWhile (fun x => ¬ isPyWs x)) := by
  unfold wordsOf
  simp only [List.length_cons, wordsOfF, h, Bool.false_eq_true, if_false]
  rw [wordsOfF_fuel cs.length (cs.dropWhile (fun x => ¬ isPyWs x)).length _
    ((List.dropWhile_sublist _).length_le) (le_refl _)]

/-! ## C6: machinery — generic scanner lemmas -/

theorem subst_prepend (tryf : List Char → Option Nat) :
    ∀ (a s : List Char), (∀ c ∈ a, ∀ t, tryf (c :: t) = none) →
    substCount tryf (a ++ s) = a ++ substCount tryf s := by
  intro a
  induction a with
  | nil => intro s _; rfl
  | cons c a' ih =>
    intro s h
    rw [List.cons_append,
      substCount_cons_none (h c (List.mem_cons_self _ _) (a' ++ s)),
      ih s (fun x hx t => h x (List.mem_cons_of_mem _ hx) t), List.cons_append]

theorem subst_id_of_none (tryf : List Char → Option Nat) (l : List Char)
    (h : ∀ c ∈ l, ∀ t, tryf (c :: t) = none) : substCount tryf l = l := by
  have := subst_prepend tryf l [] h
  simpa [substCount_nil] using this

theorem subst_append_inert (tryf : List Char → Option Nat) (b : List Char)
    (hbnone : ∀ c ∈ b, ∀ t, tryf (c :: t) = none)
    (H2 : ∀ u, tryf (u ++ b) = tryf u)
    (H3 : ∀ u k, tryf u = some k → k ≤ u.length) :
    ∀ s, substCount tryf (s ++ b) = substCount tryf s ++ b := by
  have main : ∀ n s, s.length ≤ n →
      substCount tryf (s ++ b) = substCount tryf s ++ b := by
    intro n
    induction n with
    | zero =>
      intro s hs
      have : s = [] := List.eq_nil_of_length_eq_zero (Nat.le_zero.mp hs)
      subst this
      simpa using subst_id_of_none tryf b hbnone
    | succ n ih =>
      intro s hs
      cases s with
      | nil => simpa using subst_id_of_none tryf b hbnone
      | cons c cs =>
        have h2 : tryf (c :: (cs ++ b)) = tryf (c :: cs) := H2 (c :: cs)
        cases ht : tryf (c :: cs) with
        | none =>
          rw [List.cons_append, substCount_cons_none (h2.trans ht),
            substCount_cons_none ht, ih cs (by simpa using hs), List.cons_append]
        | some k =>
          cases k with
          | zero =>
            rw [List.cons_append, substCount_cons_zero (h2.trans ht),
              substCount_cons_zero ht, ih cs (by simpa using hs), List.cons_append]
          | succ m =>
            have hk := H3 (c :: cs) (m + 1) ht
            simp only [List.length_cons] at hk
            rw [List.cons_append, substCount_cons_some (h2.trans ht),
              substCount_cons_some ht,
              List.drop_append_of_le_length (by omega),
              ih (cs.drop m) (by
                simp only [List.length_drop]
                simp only [List.length_cons] at hs
                omega),
              List.cons_append]
  intro s
  exact main s.length s (le_refl _)

/-! ## C6: machinery — per-pass properties -/

theorem lowerAscii_ws {c : Char} (h : isPyWs c = true) : lowerAscii c = c := by
  have h' := of_decide_eq_true h
  rcases h' with h1 | h1 | h1 | h1 | h1 | h1 <;> subst h1 <;> decide

theorem ne_of_ws_nws {c d : Char} (hc : isPyWs c = true) (hd : isPyWs d = false) :
    c ≠ d := by
  intro he
  subst he
  rw [hc] at hd
  cases hd

theorem matchCI_length : ∀ (pat l r : List Char), matchCI pat l = some r →
    l.length = pat.length + r.length := by
  intro pat
  induction pat with
  | nil =>
    intro l r h
    cases h
    simp
  | cons p ps ih =>
    intro l r h
    cases l with
    | nil => cases h
    | cons c cs =>
      simp only [matchCI] at h
      split at h
      · have := ih cs r h
        simp [this]
        omega
      · cases h

theorem matchCI_append {pat b : List Char}
    (hpat : ∀ p ∈ pat, isPyWs (lowerAscii p) = false) (hb : wsOnly b) :
    ∀ s, matchCI pat (s ++ b) = (matchCI pat s).map (fun r => r ++ b) := by
  induction pat with
  | nil => intro s; rfl
  | cons p ps ih =>
    intro s
    cases s with
    | nil =>
      cases b with
      | nil => rfl
      | cons c b' =>
        have hne2 : ¬ (lowerAscii c = lowerAscii p) := by
          rw [lowerAscii_ws (hb c (List.mem_cons_self _ _))]
          exact ne_of_ws_nws (hb c (List.mem_cons_self _ _))
            (hpat p (List.mem_cons_self _ _))
        simp only [List.nil_append, matchCI, if_neg hne2]
        rfl
    | cons c cs =>
      simp only [List.cons_append, matchCI]
      split
      · exact ih (fun q hq => hpat q (List.mem_cons_of_mem _ hq)) cs
      · rfl

theorem findCI_ws_none {pat : List Char} (hne : pat ≠ [])
    (hpat : ∀ p ∈ pat, isPyWs (lowerAscii p) = false) :
    ∀ b, wsOnly b → findCI pat b = none := by
  intro b
  induction b with
  | nil => intro _; rfl
  | cons c b' ih =>
    intro hb
    simp only [findCI]
    rw [if_neg, ih (fun x hx => hb x (List.mem_cons_of_mem _ hx))]
    · rfl
    · cases pat with
      | nil => exact absurd rfl hne
      | cons p ps =>
        simp only [matchCI]
        rw [if_neg]
        · simp
        · intro he
          rw [lowerAscii_ws (hb c (List.mem_cons_self _ _))] at he
          exact ne_of_ws_nws (hb c (List.mem_cons_self _ _))
            (hpat p (List.mem_cons_self _ _)) he

theorem findCI_append {pat b : List Char} (hne : pat ≠ [])
    (hpat : ∀ p ∈ pat, isPyWs (lowerAscii p) = false) (hb : wsOnly b) :
    ∀ r, findCI pat (r ++ b) = findCI pat r := by
  intro r
  induction r with
  | nil => simpa using findCI_ws_none hne hpat b hb
  | cons c cs ih =>
    have hm := matchCI_append hpat hb (c :: cs)
    rw [List.cons_append] at hm
    change findCI pat (c :: (cs ++ b)) = findCI pat (c :: cs)
    simp only [findCI]
    have hs : (Option.map (fun r => r ++ b) (matchCI pat (c :: cs))).isSome
        = (matchCI pat (c :: cs)).isSome := by
      cases matchCI pat (c :: cs) <;> rfl
    rw [hm, hs]
    split
    · rfl
    · rw [ih]

theorem findCI_bound {pat : List Char} : ∀ (l : List Char) (i : Nat),
    findCI pat l = some i → i + pat.length ≤ l.length := by
  intro l
  induction l with
  | nil => intro i h; cases h
  | cons c cs ih =>
    intro i h
    simp only [findCI] at h
    split at h
    · cases h
      rename_i hsome
      obtain ⟨r, hr⟩ := Option.isSome_iff_exists.mp hsome
      have := matchCI_length pat (c :: cs) r hr
      simp only [List.length_cons] at this ⊢
      omega
    · cases hfc : findCI pat cs with
      | none => rw [hfc] at h; cases h
      | some j =>
        rw [hfc] at h
        simp at h
        have := ih j hfc
        simp only [List.length_cons]
        omega

theorem takeWhile_lt_of_stop (p : Char → Bool) :
    ∀ {u : List Char}, (∃ x ∈ u, p x = false) → (u.takeWhile p).length < u.length := by
  intro u
  induction u with
  | nil => intro h; exact absurd h (by simp)
  | cons a u' ih =>
    intro h
    cases hpa : p a with
    | false => simp [List.takeWhile_cons, hpa]
    | true =>
      obtain ⟨x, hx, hpx⟩ := h
      rcases List.mem_cons.mp hx with rfl | hx'
      · rw [hpa] at hpx; cases hpx
      · simp only [List.takeWhile_cons, hpa, if_true, List.length_cons]
        exact Nat.succ_lt_succ (ih ⟨x, hx', hpx⟩)

theorem takeWhile_all_eq (p : Char → Bool) :
    ∀ {u : List Char}, (∀ x ∈ u, p x = true) → u.takeWhile p = u := by
  intro u
  induction u with
  | nil => intro _; rfl
  | cons a u' ih =>
    intro h
    simp only [List.takeWhile_cons, h a (List.mem_cons_self _ _), if_true]
    rw [ih (fun x hx => h x (List.mem_cons_of_mem _ hx))]

theorem tryBlock_ws_none (tag : List Char) {c : Char} (hc : isPyWs c = true)
    (t : List Char) : tryBlock tag (c :: t) = none := by
  have hne : ¬ (lowerAscii c = lowerAscii '<') := by
    rw [lowerAscii_ws hc]
    exact ne_of_ws_nws hc (by decide)
  unfold tryBlock
  simp only [matchCI, if_neg hne]

theorem tryBlock_append (tag : List Char)
    (h1 : ∀ p ∈ '<' :: tag, isPyWs (lowerAscii p) = false)
    (h2 : ∀ p ∈ '<' :: '/' :: (tag ++ ['>']), isPyWs (lowerAscii p) = false)
    {b : List Char} (hb : wsOnly b) :
    ∀ u, tryBlock tag (u ++ b) = tryBlock tag u := by
  intro u
  have hm := matchCI_append h1 hb u
  unfold tryBlock
  rw [hm]
  cases hmu : matchCI ('<' :: tag) u with
  | none => rfl
  | some r1 =>
    simp only [Option.map_some']
    by_cases hstop : ∃ x ∈ r1, (decide (x ≠ '>')) = false
    · have hattrs := takeWhile_append_stop (fun x => decide (x ≠ '>')) b hstop
      have hlt := takeWhile_lt_of_stop (fun x => decide (x ≠ '>')) hstop
      rw [hattrs]
      rw [if_pos (by simp only [List.length_append]; omega), if_pos hlt,
        List.drop_append_of_le_length (by omega),
        findCI_append (by simp) h2 hb]
    · push_neg at hstop
      have hall : ∀ x ∈ r1, (decide (x ≠ '>')) = true := by
        intro x hx
        cases hdx : (decide (x ≠ '>')) with
        | true => rfl
        | false => exact absurd hdx (hstop x hx)
      have hballn : ∀ x ∈ b, (decide (x ≠ '>')) = true := by
        intro x hx
        have := ne_of_ws_nws (hb x hx) (show isPyWs '>' = false by decide)
        simpa using this
      rw [takeWhile_append_all _ b hall, takeWhile_all_eq _ hballn,
        takeWhile_all_eq _ hall]
      rw [if_neg (by simp), if_neg (by simp)]

theorem tryBlock_bound (tag : List Char) : ∀ (l : List Char) (k : Nat),
    tryBlock tag l = some k → k ≤ l.length := by
  intro l k h
  unfold tryBlock at h
  cases hm : matchCI ('<' :: tag) l with
  | none => simp only [hm] at h; cases h
  | some r1 =>
    simp only [hm] at h
    have hlen := matchCI_length _ _ _ hm
    simp only [List.length_cons] at hlen
    split at h
    · rename_i hlt
      cases hf : findCI ('<' :: '/' :: (tag ++ ['>']))
          (r1.drop ((r1.takeWhile (fun c => decide (c ≠ '>'))).length + 1)) with
      | none => simp only [hf] at h; cases h
      | some i =>
        simp only [hf] at h
        have hbd := findCI_bound _ _ hf
        simp only [List.length_cons, List.length_append, List.length_drop,
          List.length_singleton] at hbd
        cases h
        omega
    · simp at h

theorem tryTag_ws_none {c : Char} (hc : isPyWs c = true) (t : List Char) :
    tryTag (c :: t) = none := by
  simp only [tryTag]
  rw [if_neg (ne_of_ws_nws hc (by decide))]

theorem tryTag_append {b : List Char} (hb : wsOnly b) :
    ∀ u, tryTag (u ++ b) = tryTag u := by
  intro u
  cases u with
  | nil =>
    simp only [List.nil_append]
    cases b with
    | nil => rfl
    | cons c b' => rw [tryTag_ws_none (hb c (List.mem_cons_self _ _)) b']; rfl
  | cons c cs =>
    change tryTag (c :: (cs ++ b)) = tryTag (c :: cs)
    simp only [tryTag]
    by_cases hc : c = '<'
    · rw [if_pos hc, if_pos hc]
      by_cases hstop : ∃ x ∈ cs, (decide (x ≠ '>')) = false
      · rw [takeWhile_append_stop (fun x => decide (x ≠ '>')) b hstop]
        have hlt := takeWhile_lt_of_stop (fun x => decide (x ≠ '>')) hstop
        by_cases h1 : 1 ≤ (cs.takeWhile (fun x => decide (x ≠ '>'))).length
        · rw [if_pos ⟨by simp only [List.length_append]; omega, h1⟩, if_pos ⟨hlt, h1⟩]
        · rw [if_neg (fun hh => h1 hh.2), if_neg (fun hh => h1 hh.2)]
      · push_neg at hstop
        have hall : ∀ x ∈ cs, (decide (x ≠ '>')) = true := by
          intro x hx
          cases hdx : (decide (x ≠ '>')) with
          | true => rfl
          | false => exact absurd hdx (hstop x hx)
        have hballn : ∀ x ∈ b, (decide (x ≠ '>')) = true := by
          intro x hx
          have := ne_of_ws_nws (hb x hx) (show isPyWs '>' = false by decide)
          simpa using this
        rw [takeWhile_append_all _ b hall, takeWhile_all_eq _ hballn,
          takeWhile_all_eq _ hall]
        rw [if_neg (by simp), if_neg (by simp)]
    · rw [if_neg hc, if_neg hc]

theorem tryTag_bound : ∀ (l : List Char) (k : Nat), tryTag l = some k → k ≤ l.length := by
  intro l k h
  cases l with
  | nil => cases h
  | cons c rest =>
    simp only [tryTag] at h
    by_cases hc : c = '<'
    · rw [if_pos hc] at h
      split at h
      · rename_i hcond
        cases h
        simp only [List.length_cons]
        omega
      · cases h
    · rw [if_neg hc] at h
      cases h

theorem isPrefixOf_append_ws {pat : List Char} (hpat : ∀ p ∈ pat, isPyWs p = false)
    {b : List Char} (hb : wsOnly b) :
    ∀ s, pat.isPrefixOf (s ++ b) = pat.isPrefixOf s := by
  induction pat with
  | nil => intro s; simp [List.isPrefixOf]
  | cons p ps ih =>
    intro s
    cases s with
    | nil =>
      simp only [List.nil_append]
      cases b with
      | nil => rfl
      | cons c b' =>
        have hne : (p == c) = false := by
          have := ne_of_ws_nws (hb c (List.mem_cons_self _ _))
            (hpat p (List.mem_cons_self _ _))
          simpa [beq_eq_false_iff_ne] using this.symm
        simp [List.isPrefixOf, hne]
    | cons c cs =>
      exact congrArg (fun x => p == c && x)
        (ih (fun q hq => hpat q (List.mem_cons_of_mem _ hq)) cs)

theorem tryNbsp_ws_none {c : Char} (hc : isPyWs c = true) (t : List Char) :
    tryNbsp (c :: t) = none := by
  unfold tryNbsp
  rw [if_neg]
  intro hpre
  have hne : ('&' == c) = false := by
    have := ne_of_ws_nws hc (show isPyWs '&' = false by decide)
    simpa [beq_eq_false_iff_ne] using this.symm
  simp [nbspL, List.isPrefixOf, hne] at hpre

theorem tryNbsp_append {b : List Char} (hb : wsOnly b) :
    ∀ u, tryNbsp (u ++ b) = tryNbsp u := by
  intro u
  unfold tryNbsp
  rw [isPrefixOf_append_ws (by decide) hb u]

theorem tryNbsp_bound : ∀ (l : List Char) (k : Nat), tryNbsp l = some k → k ≤ l.length := by
  intro l k h
  unfold tryNbsp at h
  split at h
  · rename_i hpre
    cases h
    exact List.IsPrefix.length_le (List.isPrefixOf_iff_prefix.mp hpre)
  · cases h

/-! ## C6: machinery — pass composition and whitespace normalization -/

theorem pass_commute (tryf : List Char → Option Nat) {a b : List Char} (x : List Char)
    (hws : ∀ (c : Char) (t : List Char), isPyWs c = true → tryf (c :: t) = none)
    (H2 : ∀ u, tryf (u ++ b) = tryf u)
    (H3 : ∀ u k, tryf u = some k → k ≤ u.length)
    (ha : wsOnly a) (hb : wsOnly b) :
    substCount tryf (a ++ x ++ b) = a ++ substCount tryf x ++ b := by
  rw [List.append_assoc, subst_prepend tryf a (x ++ b) (fun c hc t => hws c t (ha c hc)),
    subst_append_inert tryf b (fun c hc t => hws c t (hb c hc)) H2 H3 x,
    ← List.append_assoc]

theorem stripPasses_commute {a b : List Char} (x : List Char)
    (ha : wsOnly a) (hb : wsOnly b) :
    stripPasses (a ++ x ++ b) = a ++ stripPasses x ++ b := by
  unfold stripPasses
  rw [pass_commute (tryBlock styleTagL) x (fun c t hc => tryBlock_ws_none _ hc t)
      (tryBlock_append styleTagL (by decide) (by decide) hb) (tryBlock_bound styleTagL) ha hb,
    pass_commute (tryBlock scriptTagL) _ (fun c t hc => tryBlock_ws_none _ hc t)
      (tryBlock_append scriptTagL (by decide) (by decide) hb) (tryBlock_bound scriptTagL) ha hb,
    pass_commute tryTag _ (fun c t hc => tryTag_ws_none hc t)
      (tryTag_append hb) tryTag_bound ha hb,
    pass_commute tryNbsp _ (fun c t hc => tryNbsp_ws_none hc t)
      (tryNbsp_append hb) tryNbsp_bound ha hb]

theorem wordsOf_ws_nil : ∀ {l : List Char}, wsOnly l → wordsOf l = [] := by
  intro l
  induction l with
  | nil => intro _; rfl
  | cons c cs ih =>
    intro h
    rw [wordsOf_cons_ws (h c (List.mem_cons_self _ _))]
    exact ih (fun x hx => h x (List.mem_cons_of_mem _ hx))

theorem wordsOf_dropWhile_ws : ∀ (l : List Char),
    wordsOf (l.dropWhile isPyWs) = wordsOf l := by
  intro l
  induction l with
  | nil => rfl
  | cons c cs ih =>
    cases hc : isPyWs c with
    | true =>
      rw [List.dropWhile_cons, if_pos hc, wordsOf_cons_ws hc]
      exact ih
    | false =>
      rw [List.dropWhile_cons, if_neg (by simp [hc])]

theorem wordsOf_prepend_ws {a : List Char} (ha : wsOnly a) :
    ∀ y, wordsOf (a ++ y) = wordsOf y := by
  induction a with
  | nil => intro y; rfl
  | cons c a' ih =>
    intro y
    rw [List.cons_append, wordsOf_cons_ws (ha c (List.mem_cons_self _ _))]
    exact ih (fun x hx => ha x (List.mem_cons_of_mem _ hx)) y

theorem nws_of_takeWhile_nws {cs : List Char} {x : Char}
    (hx : x ∈ cs.takeWhile (fun y => ¬ isPyWs y)) : isPyWs x = false := by
  have := List.mem_takeWhile_imp hx
  simpa using this

theorem wordsOf_append_ws {b : List Char} (hb : wsOnly b) :
    ∀ y, wordsOf (y ++ b) = wordsOf y := by
  cases hbe : b with
  | nil => intro y; simp
  | cons d0 b0 =>
    have hb' : wsOnly (d0 :: b0) := hbe ▸ hb
    have main : ∀ n y, y.length ≤ n → wordsOf (y ++ (d0 :: b0)) = wordsOf y := by
      intro n
      induction n with
      | zero =>
        intro y hy
        have : y = [] := List.eq_nil_of_length_eq_zero (Nat.le_zero.mp hy)
        subst this
        simpa using wordsOf_ws_nil hb'
      | succ n ih =>
        intro y hy
        cases y with
        | nil => simpa using wordsOf_ws_nil hb'
        | cons c cs =>
          cases hc : isPyWs c with
          | true =>
            rw [List.cons_append, wordsOf_cons_ws hc, wordsOf_cons_ws hc]
            exact ih cs (by simpa using hy)
          | false =>
            rw [List.cons_append, wordsOf_cons_nws hc, wordsOf_cons_nws hc]
            by_cases hstop : ∃ x ∈ cs, (decide ¬ (isPyWs x = true)) = false
            · rw [takeWhile_append_stop _ _ hstop, dropWhile_append_stop _ _ hstop]
              rw [ih (cs.dropWhile (fun x => ¬ isPyWs x))
                (le_trans ((List.dropWhile_sublist _).length_le) (by simpa using hy))]
            · push_neg at hstop
              have hall : ∀ x ∈ cs, (decide ¬ (isPyWs x = true)) = true := by
                intro x hx
                cases hdx : (decide ¬ (isPyWs x = true)) with
                | true => rfl
                | false => exact absurd hdx (hstop x hx)
              have hbfail : (decide ¬ (isPyWs d0 = true)) = false := by
                simp [hb' d0 (List.mem_cons_self _ _)]
              rw [takeWhile_append_all _ _ hall, dropWhile_append_all _ _ hall,
                takeWhile_all_eq _ hall]
              rw [List.takeWhile_cons, if_neg (by simp [hb' d0 (List.mem_cons_self _ _)]),
                List.dropWhile_cons, if_neg (by simp [hb' d0 (List.mem_cons_self _ _)])]
              have hdw : cs.dropWhile (fun x => ¬ isPyWs x) = [] := by
                have := dropWhile_append_all (fun x => decide ¬ (isPyWs x = true))
                  ([] : List Char) hall
                simpa using this
              rw [hdw, wordsOf_ws_nil hb', List.append_nil]
              rfl
    intro y
    exact main y.length y (le_refl _)

theorem pyStripL_cons_ws {c : Char} (hc : isPyWs c = true) (z : List Char) :
    pyStripL (c :: z) = pyStripL z := by
  unfold pyStripL
  rw [List.dropWhile_cons, if_pos hc]

theorem stripR_append_ws {t : List Char} (ht : wsOnly t) (u : List Char) :
    stripR (u ++ t) = stripR u := by
  unfold stripR
  rw [List.reverse_append, dropWhile_append_all _ _
    (fun x hx => ht x (List.mem_reverse.mp hx))]

theorem stripR_append_keep {z : List Char} (hz : ∃ x ∈ z, isPyWs x = false)
    (u : List Char) : stripR (u ++ z) = u ++ stripR z := by
  unfold stripR
  obtain ⟨x, hx, hxf⟩ := hz
  rw [List.reverse_append, dropWhile_append_stop _ _ ⟨x, List.mem_reverse.mpr hx, hxf⟩,
    List.reverse_append, List.reverse_reverse]

theorem stripR_nws_id {w : List Char} (hw : nwsOnly w) : stripR w = w := by
  unfold stripR
  cases hwr : w.reverse with
  | nil =>
    rw [List.dropWhile_nil]
    rw [← hwr, List.reverse_reverse]
  | cons c cs =>
    rw [dropWhile_eq_self_of_head _ _ (hw c (List.mem_reverse.mp (hwr ▸ List.mem_cons_self _ _)))]
    rw [← hwr, List.reverse_reverse]

theorem pyStripL_head_nws {c : Char} (hc : isPyWs c = false) (z : List Char) :
    pyStripL (c :: z) = stripR (c :: z) := by
  unfold pyStripL
  rw [List.dropWhile_cons, if_neg (by simp [hc])]

theorem pyStripL_nws_id {w : List Char} (hw : nwsOnly w) : pyStripL w = w := by
  cases w with
  | nil => rfl
  | cons c cs =>
    rw [pyStripL_head_nws (hw c (List.mem_cons_self _ _))]
    exact stripR_nws_id hw

theorem tryWs_cons_nws {c : Char} (hc : isPyWs c = false) (cs : List Char) :
    tryWs (c :: cs) = none := by
  simp only [tryWs, hc, Bool.false_eq_true, if_false]

theorem substCount_ws_head {c : Char} (hc : isPyWs c = true) (cs : List Char) :
    substCount tryWs (c :: cs)
      = ' ' :: substCount tryWs (cs.dropWhile isPyWs) := by
  have ht : tryWs (c :: cs) = some ((cs.takeWhile isPyWs).length + 1) := by
    simp only [tryWs, hc, if_true, List.takeWhile_cons, List.length_cons]
  rw [substCount_cons_some ht, ← dropWhile_eq_drop_takeWhile]

/-- The whitespace-collapse pass followed by `strip` produces exactly the
words of the input joined by single spaces. -/
theorem collapse_strip_eq_joinSp : ∀ l : List Char,
    pyStripL (substCount tryWs l) = joinSp (wordsOf l) := by
  have main : ∀ (n : Nat) (l : List Char), l.length ≤ n →
      pyStripL (substCount tryWs l) = joinSp (wordsOf l) := by
    intro n
    induction n with
    | zero =>
      intro l hl
      have : l = [] := List.eq_nil_of_length_eq_zero (Nat.le_zero.mp hl)
      subst this
      rfl
    | succ n ih =>
      intro l hl
      cases l with
      | nil => rfl
      | cons c cs =>
        cases hc : isPyWs c with
        | true =>
          rw [substCount_ws_head hc, pyStripL_cons_ws (by decide),
            wordsOf_cons_ws hc, ← wordsOf_dropWhile_ws cs]
          exact ih (cs.dropWhile isPyWs)
            (le_trans ((List.dropWhile_sublist _).length_le) (by simpa using hl))
        | false =>
          have hwnws : nwsOnly (c :: cs.takeWhile (fun y => ¬ isPyWs y)) := by
            intro x hx
            rcases List.mem_cons.mp hx with rfl | hx'
            · exact hc
            · exact nws_of_takeWhile_nws hx'
          have hwnone : ∀ x ∈ (c :: cs.takeWhile (fun y => ¬ isPyWs y)),
              ∀ t, tryWs (x :: t) = none :=
            fun x hx t => tryWs_cons_nws (hwnws x hx) t
          have hdecomp : c :: cs
              = (c :: cs.takeWhile (fun y => ¬ isPyWs y))
                ++ cs.dropWhile (fun y => ¬ isPyWs y) := by
            rw [List.cons_append, List.takeWhile_append_dropWhile]
          have hsub : substCount tryWs (c :: cs)
              = (c :: cs.takeWhile (fun y => ¬ isPyWs y))
                ++ substCount tryWs (cs.dropWhile (fun y => ¬ isPyWs y)) := by
            conv_lhs => rw [hdecomp]
            exact subst_prepend tryWs _ _ hwnone
          rw [wordsOf_cons_nws hc, hsub]
          cases hrest : cs.dropWhile (fun y => ¬ isPyWs y) with
          | nil =>
            rw [substCount_nil, List.append_nil, pyStripL_nws_id hwnws]
            rfl
          | cons r rs =>
            have hrws : isPyWs r = true := by
              have := dropWhile_head_not _ hrest
              simpa using this
            rw [substCount_ws_head hrws]
            have hlen1 : (cs.dropWhile (fun y => ¬ isPyWs y)).length ≤ cs.length :=
              (List.dropWhile_sublist _).length_le
            rw [hrest] at hlen1
            have hlen2 : (rs.dropWhile isPyWs).length ≤ rs.length :=
              (List.dropWhile_sublist _).length_le
            have hcs : cs.length ≤ n := by simpa using hl
            cases h2 : rs.dropWhile isPyWs with
            | nil =>
              rw [substCount_nil]
              have hLHS : pyStripL ((c :: cs.takeWhile (fun y => ¬ isPyWs y)) ++ [' '])
                  = c :: cs.takeWhile (fun y => ¬ isPyWs y) := by
                rw [List.cons_append, pyStripL_head_nws hc, ← List.cons_append,
                  stripR_append_ws (by intro x hx; simpa using List.mem_singleton.mp hx ▸
                    (show isPyWs ' ' = true by decide)) _,
                  stripR_nws_id hwnws]
              rw [hLHS]
              rw [wordsOf_cons_ws hrws, ← wordsOf_dropWhile_ws rs, h2, wordsOf_nil]
              rfl
            | cons d ds =>
              have hd : isPyWs d = false := dropWhile_head_not _ h2
              have hsubd : substCount tryWs (d :: ds)
                  = d :: substCount tryWs ds := substCount_cons_none (tryWs_cons_nws hd ds)
              have hLHS2 : pyStripL ((c :: cs.takeWhile (fun y => ¬ isPyWs y))
                    ++ ' ' :: substCount tryWs (d :: ds))
                  = (c :: cs.takeWhile (fun y => ¬ isPyWs y))
                    ++ ' ' :: stripR (substCount tryWs (d :: ds)) := by
                rw [List.cons_append, pyStripL_head_nws hc, ← List.cons_append]
                rw [show (c :: cs.takeWhile (fun y => ¬ isPyWs y))
                      ++ ' ' :: substCount tryWs (d :: ds)
                    = ((c :: cs.takeWhile (fun y => ¬ isPyWs y)) ++ [' '])
                      ++ substCount tryWs (d :: ds) by
                  rw [List.append_assoc]; rfl]
                rw [stripR_append_keep ⟨d, by rw [hsubd]; exact List.mem_cons_self _ _, hd⟩]
                rw [List.append_assoc]
                rfl
              rw [hLHS2]
              have hih : pyStripL (substCount tryWs (d :: ds)) = joinSp (wordsOf (d :: ds)) := by
                refine ih (d :: ds) ?_
                have : (d :: ds).length ≤ rs.length := h2 ▸ hlen2
                have : rs.length < cs.length := by
                  have : (r :: rs).length ≤ cs.length := hlen1
                  simpa using this
                omega
              have hstrip_eq : stripR (substCount tryWs (d :: ds))
                  = joinSp (wordsOf (d :: ds)) := by
                rw [← hih, hsubd, pyStripL_head_nws hd]
              rw [hstrip_eq]
              rw [wordsOf_cons_ws hrws, ← wordsOf_dropWhile_ws rs, h2]
              rw [wordsOf_cons_nws hd]
              rfl
  intro l
  exact main l.length l (le_refl _)

/-! ## C6: the empty-page threshold -/

theorem strip_as_words (s : String) :
    strip_html_to_text s = strOf (joinSp (wordsOf (stripPasses s.data))) := by
  unfold strip_html_to_text
  rw [collapse_strip_eq_joinSp]

theorem strip_decomp (l : List Char) :
    l = l.takeWhile isPyWs ++ pyStripL l
        ++ ((l.dropWhile isPyWs).reverse.takeWhile isPyWs).reverse := by
  have h3 := List.takeWhile_append_dropWhile isPyWs (l.dropWhile isPyWs).reverse
  have h2 : l.dropWhile isPyWs
      = pyStripL l ++ ((l.dropWhile isPyWs).reverse.takeWhile isPyWs).reverse :=
    calc l.dropWhile isPyWs
        = ((l.dropWhile isPyWs).reverse).reverse := (List.reverse_reverse _).symm
      _ = ((l.dropWhile isPyWs).reverse.takeWhile isPyWs
            ++ (l.dropWhile isPyWs).reverse.dropWhile isPyWs).reverse := by rw [h3]
      _ = ((l.dropWhile isPyWs).reverse.dropWhile isPyWs).reverse
            ++ ((l.dropWhile isPyWs).reverse.takeWhile isPyWs).reverse :=
          List.reverse_append _ _
      _ = pyStripL l ++ ((l.dropWhile isPyWs).reverse.takeWhile isPyWs).reverse := rfl
  calc l = l.takeWhile isPyWs ++ l.dropWhile isPyWs :=
        (List.takeWhile_append_dropWhile _ _).symm
    _ = l.takeWhile isPyWs ++ (pyStripL l
          ++ ((l.dropWhile isPyWs).reverse.takeWhile isPyWs).reverse) := by rw [← h2]
    _ = l.takeWhile isPyWs ++ pyStripL l
          ++ ((l.dropWhile isPyWs).reverse.takeWhile isPyWs).reverse :=
        (List.append_assoc _ _ _).symm

/-- Stripping markup commutes with Python's `strip`: surrounding whitespace of
the body never changes the markup-stripped text. -/
theorem strip_pyStrip (s : String) :
    strip_html_to_text (pyStrip s) = strip_html_to_text s := by
  have hdata : (pyStrip s).data = pyStripL s.data := rfl
  have ha : wsOnly (s.data.takeWhile isPyWs) := fun x hx => List.mem_takeWhile_imp hx
  have hb : wsOnly ((s.data.dropWhile isPyWs).reverse.takeWhile isPyWs).reverse :=
    fun x hx => List.mem_takeWhile_imp (List.mem_reverse.mp hx)
  have hwords : wordsOf (stripPasses (pyStripL s.data))
      = wordsOf (stripPasses s.data) := by
    conv_rhs => rw [strip_decomp s.data]
    rw [stripPasses_commute _ ha hb, List.append_assoc,
      wordsOf_prepend_ws ha, wordsOf_append_ws hb]
  rw [strip_as_words, strip_as_words, hdata, hwords]

/-- C6: a string-bodied document is classified effectively empty exactly when
the markup-stripped text of its body is shorter than 30 characters; in
particular stripped lengths 0, 10 and 29 classify empty while 30 and 45
classify non-empty (the threshold is exclusive at 30). -/
theorem c6_empty_threshold (p : PageRec) (s : String)
    (hres : resolveRaw p = PyVal.pstr s) :
    (is_effectively_empty_page p = true ↔ (strip_html_to_text s).length < 30) ∧
    (((strip_html_to_text s).length = 0 ∨ (strip_html_to_text s).length = 10 ∨
      (strip_html_to_text s).length = 29) → is_effectively_empty_page p = true) ∧
    (((strip_html_to_text s).length = 30 ∨ (strip_html_to_text s).length = 45) →
      is_effectively_empty_page p = false) := by
  have hiff : is_effectively_empty_page p = true
      ↔ (strip_html_to_text s).length < 30 := by
    unfold is_effectively_empty_page
    simp only [hres]
    by_cases hps : pyStrip s = ""
    · rw [if_pos hps]
      have hempty : strip_html_to_text s = "" := by
        rw [← strip_pyStrip s, hps]
        rfl
      simp [hempty]
    · rw [if_neg hps, strip_pyStrip s]
      simp
  refine ⟨hiff, ?_, ?_⟩
  · intro h
    exact hiff.mpr (by omega)
  · intro h
    cases he : is_effectively_empty_page p with
    | true => exact absurd (hiff.mp he) (by omega)
    | false => rfl

/-- Witness for C6 at a concrete page whose body is the plain string
`"short"`. -/
theorem c6_witness :
    resolveRaw pShort = PyVal.pstr "short" ∧
    (is_effectively_empty_page pShort = true
      ↔ (strip_html_to_text "short").length < 30) :=
  ⟨rfl, (c6_empty_threshold pShort "short" rfl).1⟩

end BookStack
